import Mathlib

/-!
# Verification of the olap-storage-engine core against its specification

This file gives a shallow embedding, in Lean 4, of the parts of the
`olap-storage-engine` Rust code base that the specification's testable
properties talk about: the value codec (`src/encoding` = `src/mod.rs`),
the CRC-protected data page (`src/page`), the ordinal index
(`src/index`), the column writer (`src/column_writer.rs`), the segment
writer/reader (`src/segment.rs`), rowset metadata (`src/meta.rs`), the
version graph and tablet operations (`src/tablet.rs`), and the
partition router (`src/partition.rs`).

Machine integers are embedded as `Nat`/`Int` with explicit reduction
modulo `2^w` where the Rust code relies on wrapping; byte strings are
`List Nat` with every element `< 256`; Rust `Result` is `Except`;
hash-map state is embedded as association lists.  All definitions are
executable.
-/

set_option maxHeartbeats 1000000

namespace Olap

/-! ## Little-endian byte serialisation (`to_le_bytes` / `from_le_bytes`) -/

/-- The four little-endian bytes of a `u32` value (the value is reduced
modulo `2^32`, as Rust's `as u32` casts do). -/
def le32 (n : Nat) : List Nat :=
  [n % 256, n / 256 % 256, n / 256 ^ 2 % 256, n / 256 ^ 3 % 256]

/-- The eight little-endian bytes of a `u64` value. -/
def le64 (n : Nat) : List Nat :=
  [n % 256, n / 256 % 256, n / 256 ^ 2 % 256, n / 256 ^ 3 % 256,
   n / 256 ^ 4 % 256, n / 256 ^ 5 % 256, n / 256 ^ 6 % 256, n / 256 ^ 7 % 256]

/-- Read a `u32` from the first four bytes of a list (`from_le_bytes`). -/
def fromLe32 (l : List Nat) : Nat :=
  l.getD 0 0 + l.getD 1 0 * 256 + l.getD 2 0 * 256 ^ 2 + l.getD 3 0 * 256 ^ 3

/-- Read a `u64` from the first eight bytes of a list (`from_le_bytes`). -/
def fromLe64 (l : List Nat) : Nat :=
  l.getD 0 0 + l.getD 1 0 * 256 + l.getD 2 0 * 256 ^ 2 + l.getD 3 0 * 256 ^ 3 +
  l.getD 4 0 * 256 ^ 4 + l.getD 5 0 * 256 ^ 5 + l.getD 6 0 * 256 ^ 6 +
  l.getD 7 0 * 256 ^ 7

/-- Two's-complement reduction of an integer into the `u64` bit pattern,
as a natural number below `2^64` (what `i64::to_le_bytes` serialises). -/
def u64repr (x : Int) : Nat := (x % (2 ^ 64 : Nat)).toNat

/-- Interpretation of a `u64` bit pattern as an `i64`
(what `i64::from_le_bytes` produces). -/
def toI64 (n : Nat) : Int :=
  if n % 2 ^ 64 < 2 ^ 63 then (n % 2 ^ 64 : Nat) else (n % 2 ^ 64 : Nat) - 2 ^ 64

/-- `i64::to_le_bytes`. -/
def i64le (x : Int) : List Nat := le64 (u64repr x)

/-- `i64::from_le_bytes` on the first eight bytes. -/
def i64fromLe (l : List Nat) : Int := toI64 (fromLe64 l)

/-- Big-endian bytes of a `u64` bit pattern (`to_be_bytes`). -/
def be64 (n : Nat) : List Nat := (le64 n).reverse

/-- Big-endian bytes of a `u32` bit pattern. -/
def be32 (n : Nat) : List Nat := (le32 n).reverse

/-! ## Values and field types (`src/field_type.rs`)

`Value` is the runtime representation of a cell.  The two float
variants carry their raw IEEE-754 bit patterns (`Nat` below `2^32` /
`2^64`): none of the embedded code performs float arithmetic, it only
moves the bit patterns around. -/

inductive Value where
  | null : Value
  | int8 : Int → Value
  | int16 : Int → Value
  | int32 : Int → Value
  | int64 : Int → Value
  | float32 : Nat → Value
  | float64 : Nat → Value
  | bytes : List Nat → Value
  deriving DecidableEq, Repr

inductive EncodingType where
  | plain | runLength | deltaBinary | dictionary
  deriving DecidableEq, Repr

inductive CompressionType where
  | none | lz4
  deriving DecidableEq, Repr

namespace Value

/-- `Value::as_i64`. -/
def as_i64 : Value → Option Int
  | int8 v => some v
  | int16 v => some v
  | int32 v => some v
  | int64 v => some v
  | _ => Option.none

/-- `Value::to_sort_key`: the byte string used by the indexes.
The `Int8`/`Int16`/`Float32` catch-all arm of the Rust code formats the
debug representation; it is embedded via a decimal formatter below. -/
def natDigits (n : Nat) : List Nat := (Nat.toDigits 10 n).map Char.toNat

def intDigits (x : Int) : List Nat :=
  if x < 0 then 45 :: natDigits (-x).toNat else natDigits x.toNat

def strBytes (s : String) : List Nat := s.data.map Char.toNat

def debugFmt : Value → List Nat
  | int8 v => strBytes "Int8(" ++ intDigits v ++ [41]
  | int16 v => strBytes "Int16(" ++ intDigits v ++ [41]
  | float32 b => strBytes "Float32(" ++ natDigits b ++ [41]
  | _ => []

def to_sort_key : Value → List Nat
  | null => []
  | int64 v => be64 (u64repr v)
  | int32 v => be32 ((v % (2 ^ 32 : Nat)).toNat)
  | float64 b => be64 (b % 2 ^ 64)
  | bytes b => b
  | v => debugFmt v

end Value

/-! ## Encodings (`src/mod.rs`, module `encoding`) -/

inductive OlapError where
  | tabletNotFound : Nat → OlapError
  | partitionNotFound : List Nat → OlapError
  | versionExists : Int × Int → OlapError
  | missingVersions : List Nat → OlapError
  | segmentIo : List Nat → OlapError
  | encodingErr : List Nat → OlapError
  | compressionErr : List Nat → OlapError
  | checksumMismatch : OlapError
  | schemaMismatch : OlapError
  deriving DecidableEq, Repr

namespace plain

/-- `encoding::plain::encode`. -/
def encode (values : List Value) : List Nat :=
  values.flatMap fun v =>
    match v with
    | .null => [0]
    | .int8 x => [(x % (2 ^ 8 : Nat)).toNat]
    | .int16 x => [((x % (2 ^ 16 : Nat)).toNat) % 256, ((x % (2 ^ 16 : Nat)).toNat) / 256]
    | .int32 x => le32 ((x % (2 ^ 32 : Nat)).toNat)
    | .int64 x => i64le x
    | .float32 b => le32 (b % 2 ^ 32)
    | .float64 b => le64 (b % 2 ^ 64)
    | .bytes b => le32 (b.length % 2 ^ 32) ++ b

/-- `encoding::plain::decode`: reads little-endian `i64`s while at least
eight bytes remain and fewer than `count` values have been produced. -/
def decodeLoop : Nat → List Nat → List Value
  | 0, _ => []
  | n + 1, data =>
    if 8 ≤ data.length then
      .int64 (i64fromLe data) :: decodeLoop n (data.drop 8)
    else []

def decode (data : List Nat) (count : Nat) : Except OlapError (List Value) :=
  .ok (decodeLoop count data)

end plain

namespace delta

/-- `encoding::delta::encode`: base `i64` followed by wrapping deltas. -/
def encodeDeltas (prev : Int) : List Int → List Nat
  | [] => []
  | x :: rest => i64le (x - prev) ++ encodeDeltas x rest

def encodeInts : List Int → List Nat
  | [] => []
  | x :: rest => i64le x ++ encodeDeltas x rest

def encode (values : List Value) : List Nat :=
  encodeInts (values.map fun v => (v.as_i64).getD 0)

/-- The decode loop: `prev += delta` with two's-complement wrapping. -/
def decodeLoop : Nat → Int → List Nat → List Value
  | 0, _, _ => []
  | n + 1, prev, data =>
    if 8 ≤ data.length then
      let prev' := toI64 (u64repr (prev + i64fromLe data))
      .int64 prev' :: decodeLoop n prev' (data.drop 8)
    else []

def decode (data : List Nat) (count : Nat) : Except OlapError (List Value) :=
  if data.length < 8 then .ok []
  else
    let base := i64fromLe data
    .ok (.int64 base :: decodeLoop (count - 1) base (data.drop 8))

end delta

/-! ### Helper predicates for the codec claims -/

/-- A value of one of the four Rust integer variants. -/
def Value.isIntegerType : Value → Bool
  | .int8 _ | .int16 _ | .int32 _ | .int64 _ => true
  | _ => false

/-- The payload of an integer value lies in the range of its Rust type. -/
def Value.intInRange : Value → Prop
  | .int8 x => -2 ^ 7 ≤ x ∧ x < 2 ^ 7
  | .int16 x => -2 ^ 15 ≤ x ∧ x < 2 ^ 15
  | .int32 x => -2 ^ 31 ≤ x ∧ x < 2 ^ 31
  | .int64 x => -2 ^ 63 ≤ x ∧ x < 2 ^ 63
  | _ => True

/-! ## Run-length and dictionary decoders (`src/mod.rs`) -/

namespace rle

def decodeLoop (data : List Nat) : List Value :=
  if h : 12 ≤ data.length then
    List.replicate (fromLe32 data) (.int64 (i64fromLe (data.drop 4))) ++
      decodeLoop (data.drop 12)
  else []
  termination_by data.length
  decreasing_by simp_all [List.length_drop]; omega

def decode (data : List Nat) : Except OlapError (List Value) :=
  .ok (decodeLoop data)

end rle

namespace dict

/-- Reading the dictionary entries of a Dictionary-encoded block; the
Rust `break`s leave the loop early but code reading still continues at
the current position, so the final position is returned as well. -/
def readEntries (data : List Nat) : Nat → Nat → List (List Nat) × Nat
  | 0, pos => ([], pos)
  | n + 1, pos =>
    if pos + 4 > data.length then ([], pos)
    else
      let slen := fromLe32 (data.drop pos)
      if pos + 4 + slen > data.length then ([], pos + 4)
      else
        let entry := ((data.drop (pos + 4)).take slen)
        let r := readEntries data n (pos + 4 + slen)
        (entry :: r.1, r.2)

def readCodes (data : List Nat) (d : List (List Nat)) : Nat → Nat → List Value
  | 0, _ => []
  | n + 1, pos =>
    if pos + 4 > data.length then []
    else
      .bytes (d.getD (fromLe32 (data.drop pos)) []) ::
        readCodes data d n (pos + 4)

def decode (data : List Nat) (count : Nat) : Except OlapError (List Value) :=
  if data.length < 4 then
    .error (.encodingErr (Value.strBytes "dict: data too short"))
  else
    let r := readEntries data (fromLe32 data) 4
    .ok (readCodes data r.1 count r.2)

end dict

/-! ## Run-length and dictionary encoders (`src/mod.rs`) -/

/-- Display formatting (`format!("{}", v)`) as used by the dictionary
encoder's key projection.  Integer and byte variants are modelled
faithfully; for the float variants (which carry IEEE bit patterns here)
the decimal rendering of Rust's float Display is outside the scope of
this embedding — no verified claim exercises a Dictionary-encoded float
column. -/
def displayValue : Value → List Nat
  | .null => Value.strBytes "NULL"
  | .int8 x => Value.intDigits x
  | .int16 x => Value.intDigits x
  | .int32 x => Value.intDigits x
  | .int64 x => Value.intDigits x
  | .float32 b => Value.strBytes "f32:" ++ Value.natDigits b
  | .float64 b => Value.strBytes "f64:" ++ Value.natDigits b
  | .bytes b => b

namespace rle

def writeRun (run : Nat) (v : Value) : List Nat :=
  le32 run ++
    match v with
    | .int64 x => i64le x
    | .bytes b => le32 b.length ++ b
    | v => i64le ((v.as_i64).getD 0)

def encodeRuns (cur : Value) (run : Nat) : List Value → List Nat
  | [] => writeRun run cur
  | v :: rest =>
    if v = cur then encodeRuns cur (run + 1) rest
    else writeRun run cur ++ encodeRuns v 1 rest

def encode : List Value → List Nat
  | [] => []
  | v :: rest => encodeRuns v 1 rest

end rle

namespace dict

def keyOf (v : Value) : List Nat :=
  match v with
  | .bytes b => b
  | v => displayValue v

def buildDict (values : List Value) : List (List Nat) × List Nat :=
  let d := values.foldl
    (fun d v => if keyOf v ∈ d then d else d ++ [keyOf v]) []
  let codes := values.flatMap
    (fun v => le32 ((d.indexOf (keyOf v)) % 2 ^ 32))
  (d, codes)

def encode (values : List Value) : List Nat :=
  let r := buildDict values
  le32 (r.1.length % 2 ^ 32) ++
    r.1.flatMap (fun e => le32 (e.length % 2 ^ 32) ++ e) ++ r.2

end dict

/-! ## Codec dispatch (`encoding::encode` / `encoding::decode`).
Every Rust encoder arm returns `Ok`, so `encode` is embedded as a pure
function. -/

def encodingEncode (values : List Value) : EncodingType → List Nat
  | .plain => plain.encode values
  | .runLength => rle.encode values
  | .deltaBinary => delta.encode values
  | .dictionary => dict.encode values

def encodingDecode (data : List Nat) (enc : EncodingType) (count : Nat) :
    Except OlapError (List Value) :=
  match enc with
  | .plain => plain.decode data count
  | .runLength => rle.decode data
  | .deltaBinary => delta.decode data count
  | .dictionary => dict.decode data count

/-! ## Compression (`src/compression/mod.rs`)

The `None` arms copy the input; the `Lz4` arms call the external `lz4`
crate, which is not part of this repository.  The external block codec
is therefore a parameter of the embedding: every theorem that touches a
compression path is quantified over it. -/

structure Lz4 where
  compress : List Nat → Except OlapError (List Nat)
  decompress : List Nat → Nat → Except OlapError (List Nat)

def compress (lz : Lz4) (data : List Nat) :
    CompressionType → Except OlapError (List Nat)
  | .none => .ok data
  | .lz4 => lz.compress data

def decompress (lz : Lz4) (data : List Nat) (codec : CompressionType)
    (uncompressedLen : Nat) : Except OlapError (List Nat) :=
  match codec with
  | .none => .ok data
  | .lz4 => lz.decompress data uncompressedLen

/-! ## CRC32 (the `crc32fast::hash` dependency)

The standard IEEE CRC-32: initial state `0xFFFFFFFF`, reflected
polynomial `0xEDB88320`, one xor-and-shift step per bit, final
complement. -/

def crcPoly : Nat := 0xEDB88320

def bitstep (c : Nat) : Nat :=
  if c % 2 = 1 then (c / 2) ^^^ crcPoly else c / 2

def stepByte (crc b : Nat) : Nat := bitstep^[8] (crc ^^^ b)

def crc32 (data : List Nat) : Nat :=
  (data.foldl stepByte 0xFFFFFFFF) ^^^ 0xFFFFFFFF

/-! ## Data pages (`src/page/mod.rs`) -/

def PAGE_MAX_ROWS : Nat := 1024

structure PageDecoded where
  value_count : Nat
  first_row_id : Nat
  values : List Value
  deriving Repr, DecidableEq

/-- The framing applied by `PageBuilder::build` around the compressed
payload: `u32 count | u32 first_row_id | u32 uncompressed_size |
u8 has_nulls=0 | payload | u32 crc32-of-everything-before`. -/
def pageFrame (count firstRowId uncompSize : Nat) (compressed : List Nat) :
    List Nat :=
  let body := le32 count ++ le32 firstRowId ++ le32 uncompSize ++ [0] ++ compressed
  body ++ le32 (crc32 body)

/-- `PageBuilder::build`: encode, compress, frame. -/
def pageBuild (lz : Lz4) (firstRowId : Nat) (enc : EncodingType)
    (comp : CompressionType) (values : List Value) :
    Except OlapError (List Nat) := do
  let encoded := encodingEncode values enc
  let compressed ← compress lz encoded comp
  .ok (pageFrame values.length firstRowId encoded.length compressed)

/-- `PageDecoder::decode`. -/
def pageDecode (lz : Lz4) (data : List Nat) (enc : EncodingType)
    (comp : CompressionType) : Except OlapError PageDecoded :=
  if data.length < 17 then
    .error (.segmentIo (Value.strBytes "page data too short"))
  else
    let value_count := fromLe32 data
    let first_row_id := fromLe32 (data.drop 4)
    let uncomp_size := fromLe32 (data.drop 8)
    let payloadEnd := data.length - 4
    let payload := (data.take payloadEnd).drop 13
    let stored_crc := fromLe32 (data.drop payloadEnd)
    let actual_crc := crc32 (data.take payloadEnd)
    if stored_crc ≠ actual_crc then .error .checksumMismatch
    else do
      let raw ← decompress lz payload comp uncomp_size
      let values ← encodingDecode raw enc value_count
      .ok ⟨value_count, first_row_id, values⟩

/-! ## Ordinal index (`src/index/mod.rs`) -/

/-- The binary-search loop behind Rust's `slice::partition_point`
(invariant-halving on `[left, right)`). -/
def partitionPointLoop (pred : Nat × Nat → Bool) (v : List (Nat × Nat))
    (left right : Nat) : Nat :=
  if h : left < right then
    if pred (v.getD (left + (right - left) / 2) (0, 0)) then
      partitionPointLoop pred v (left + (right - left) / 2 + 1) right
    else partitionPointLoop pred v left (left + (right - left) / 2)
  else left
  termination_by right - left
  decreasing_by all_goals omega

def partitionPoint (pred : Nat × Nat → Bool) (v : List (Nat × Nat)) : Nat :=
  partitionPointLoop pred v 0 v.length

structure OrdinalIndex where
  entries : List (Nat × Nat)
  deriving Repr, DecidableEq

namespace OrdinalIndex

def add (idx : OrdinalIndex) (firstRowId pageOffset : Nat) : OrdinalIndex :=
  ⟨idx.entries ++ [(firstRowId, pageOffset)]⟩

/-- `OrdinalIndex::find_page_offset`. -/
def find_page_offset (idx : OrdinalIndex) (rowId : Nat) : Option Nat :=
  if idx.entries = [] then Option.none
  else
    let pos := partitionPoint (fun e => decide (e.1 ≤ rowId)) idx.entries
    let i := if pos = 0 then 0 else pos - 1
    (idx.entries.get? i).map Prod.snd

def page_count (idx : OrdinalIndex) : Nat := idx.entries.length

def serialize (idx : OrdinalIndex) : List Nat :=
  le32 idx.entries.length ++
    idx.entries.flatMap (fun e => le32 e.1 ++ le64 e.2)

def readEntry (data : List Nat) : Nat → Nat → List (Nat × Nat)
  | 0, _ => []
  | n + 1, i =>
    if 4 + i * 12 + 12 > data.length then []
    else
      (fromLe32 (data.drop (4 + i * 12)),
       fromLe64 (data.drop (4 + i * 12 + 4))) :: readEntry data n (i + 1)

def deserialize (data : List Nat) : OrdinalIndex :=
  if data.length < 4 then ⟨[]⟩
  else ⟨readEntry data (fromLe32 data) 0⟩

end OrdinalIndex

/-! ## Partition router (`src/partition.rs`)

Rust `&str` keys compare byte-lexicographically (`key <
it.upper_bound`); keys are embedded as UTF-8 byte lists. -/

/-- Byte-lexicographic strict order of Rust `&str` comparison. -/
def lexLt : List Nat → List Nat → Bool
  | [], [] => false
  | [], _ :: _ => true
  | _ :: _, [] => false
  | a :: as, b :: bs => if a < b then true else if b < a then false else lexLt as bs

structure MaterializedIndex where
  index_id : Nat
  tablets : List Nat
  deriving Repr, DecidableEq

inductive BucketType where
  | hash : List (List Nat) → Nat → BucketType
  | random : Nat → BucketType
  deriving Repr, DecidableEq

structure Partition where
  partition_id : Nat
  base_index : MaterializedIndex
  rollup_indexes : List MaterializedIndex
  bucket_type : BucketType
  visible_version : Int
  deriving Repr, DecidableEq

structure RangePartitionItem where
  partition_id : Nat
  upper_bound : List Nat
  deriving Repr, DecidableEq

inductive PartitionPolicy where
  | range : List RangePartitionItem → PartitionPolicy
  | list : List (List Nat × Nat) → PartitionPolicy
  | unpartitioned : Nat → PartitionPolicy
  deriving Repr, DecidableEq

structure PartitionInfo where
  partition_columns : List (List Nat)
  policy : PartitionPolicy
  partitions : List (Nat × Partition)
  deriving Repr, DecidableEq

/-- `HashMap::get` on an association list with unique keys. -/
def lookupPid (l : List (Nat × Partition)) (pid : Nat) : Option Partition :=
  (l.find? (fun e => e.1 == pid)).map Prod.snd

/-- The policy match inside `PartitionInfo::find_partition` that
resolves the partition id (the `?` operator propagates its errors). -/
def PartitionInfo.resolvePid (info : PartitionInfo) (key : List Nat) :
    Except OlapError Nat :=
  match info.policy with
  | .unpartitioned pid => Except.ok pid
  | .list m =>
    match m.find? (fun e => e.1 == key) with
    | some e => Except.ok e.2
    | Option.none => Except.error (OlapError.partitionNotFound key)
  | .range items =>
    match items.find? (fun it => lexLt key it.upper_bound) with
    | some it => Except.ok it.partition_id
    | Option.none => Except.error (OlapError.partitionNotFound key)

/-- `PartitionInfo::find_partition`. -/
def PartitionInfo.find_partition (info : PartitionInfo) (key : List Nat) :
    Except OlapError Partition :=
  match info.resolvePid key with
  | .error e => .error e
  | .ok pid =>
    match lookupPid info.partitions pid with
    | some p => .ok p
    | Option.none =>
      .error (.partitionNotFound (Value.strBytes "pid=" ++ Value.natDigits pid))

/-! ## Rowset metadata (`src/meta.rs`) -/

structure Version where
  start : Int
  /-- The `end` field of the Rust struct (`end` is reserved in Lean). -/
  stop : Int
  deriving Repr, DecidableEq

inductive RowsetState where
  | prepared | committed | visible | stale
  deriving Repr, DecidableEq

structure RowsetMeta where
  rowset_id : Nat
  tablet_id : Nat
  partition_id : Nat
  version : Version
  num_rows : Nat
  data_disk_size : Nat
  num_segments : Nat
  state : RowsetState
  segment_paths : List (List Nat)
  deriving Repr, DecidableEq

/-- `format!("{}_{}_{}.seg", tablet_id, rowset_id, i)`. -/
def segPathName (tabletId rowsetId i : Nat) : List Nat :=
  Value.natDigits tabletId ++ [95] ++ Value.natDigits rowsetId ++ [95] ++
    Value.natDigits i ++ Value.strBytes ".seg"

/-- `RowsetMeta::new`: note `num_segments = (num_rows / 1_000_000) + 1`
cast `as u32`. -/
def RowsetMeta.new (rowsetId tabletId partitionId : Nat) (version : Version)
    (numRows dataDiskSize : Nat) : RowsetMeta :=
  let numSegments := (numRows / 1000000 + 1) % 2 ^ 32
  { rowset_id := rowsetId, tablet_id := tabletId, partition_id := partitionId,
    version := version, num_rows := numRows, data_disk_size := dataDiskSize,
    num_segments := numSegments, state := .prepared,
    segment_paths := (List.range numSegments).map (segPathName tabletId rowsetId) }

/-! ## Version graph and tablet (`src/tablet.rs`)

The `HashMap<i64, HashSet<i64>>` adjacency is embedded as a duplicate-free
edge list; the set of outgoing ends of a node is recovered by filtering,
and is sorted in descending order before iteration exactly as the Rust
BFS does. -/

structure VersionGraph where
  edges : List Version
  deriving Repr, DecidableEq

namespace VersionGraph

def add_edge (g : VersionGraph) (v : Version) : VersionGraph :=
  if v ∈ g.edges then g else ⟨g.edges ++ [v]⟩

def remove_edge (g : VersionGraph) (v : Version) : VersionGraph :=
  ⟨g.edges.erase v⟩

/-- Insertion into a descending-sorted list (the structural sort used to
model `sort_unstable_by(|a, b| b.cmp(a))`; on the duplicate-free input
below any correct sort yields the same descending order). -/
def insertDesc (x : Int) : List Int → List Int
  | [] => [x]
  | y :: ys => if y ≤ x then x :: y :: ys else y :: insertDesc x ys

def sortDesc : List Int → List Int
  | [] => []
  | x :: xs => insertDesc x (sortDesc xs)

/-- The outgoing ends of `cur`, iterated largest-first. -/
def endsFor (g : VersionGraph) (cur : Int) : List Int :=
  sortDesc ((g.edges.filter (fun v => v.start == cur)).map Version.stop).dedup

/-- One pass over the sorted ends of the dequeued node: either an edge
reaches `hi` (returning the finished path) or new nodes are enqueued. -/
def scanEnds (hi cur : Int) (path : List Version) :
    List Int → List (Int × List Version) → List Int →
    Option (List Version) × List Int × List (Int × List Version)
  | visited, acc, [] => (Option.none, visited, acc)
  | visited, acc, e :: rest =>
    if e == hi then (some (path ++ [⟨cur, e⟩]), visited, acc)
    else if e < hi ∧ (e + 1) ∉ visited then
      scanEnds hi cur path (visited ++ [e + 1])
        (acc ++ [(e + 1, path ++ [⟨cur, e⟩])]) rest
    else scanEnds hi cur path visited acc rest

/-- The BFS queue loop.  Rust's loop terminates because every enqueue
marks a fresh visited node and the visited set can only grow to one node
per edge (plus the start), so `edges.length + 1` dequeues always
suffice; the fuel never runs out on a non-empty queue. -/
def bfsLoop (g : VersionGraph) (hi : Int) :
    Nat → List (Int × List Version) → List Int → Option (List Version)
  | 0, _, _ => Option.none
  | _ + 1, [], _ => Option.none
  | fuel + 1, (cur, path) :: qs, visited =>
    match scanEnds hi cur path visited [] (g.endsFor cur) with
    | (some p, _, _) => some p
    | (Option.none, visited2, items) => bfsLoop g hi fuel (qs ++ items) visited2

def find_covering_path (g : VersionGraph) (lo hi : Int) : Option (List Version) :=
  bfsLoop g hi (g.edges.length + 1) [(lo, [])] [lo]

def has_version_holes (g : VersionGraph) (lo hi : Int) : Bool :=
  (find_covering_path g lo hi).isNone

end VersionGraph

/-- `format!("[{lo},{hi}]")`. -/
def fmtRange (lo hi : Int) : List Nat :=
  [91] ++ Value.intDigits lo ++ [44] ++ Value.intDigits hi ++ [93]

structure TabletMeta where
  tablet_id : Nat
  partition_id : Nat
  schema_hash : Nat
  rowsets : List (Nat × RowsetMeta)
  cumulative_layer_point : Int
  max_version : Int
  deriving Repr, DecidableEq

def TabletMeta.new (tabletId partitionId schemaHash : Nat) : TabletMeta :=
  { tablet_id := tabletId, partition_id := partitionId,
    schema_hash := schemaHash, rowsets := [],
    cumulative_layer_point := -1, max_version := -1 }

structure TabletInner where
  meta : TabletMeta
  version_graph : VersionGraph
  deriving Repr, DecidableEq

namespace TabletInner

def new (meta : TabletMeta) : TabletInner :=
  { meta := meta,
    version_graph :=
      meta.rowsets.foldl (fun g p => g.add_edge p.2.version) ⟨[]⟩ }

/-- `Tablet::add_rowset`. -/
def add_rowset (t : TabletInner) (rs : RowsetMeta) :
    Except OlapError TabletInner :=
  if t.meta.rowsets.any (fun p => p.1 == rs.rowset_id) then
    .error (.versionExists (rs.version.start, rs.version.stop))
  else
    let rs2 := { rs with state := RowsetState.visible }
    .ok { meta := { t.meta with
            rowsets := t.meta.rowsets ++ [(rs2.rowset_id, rs2)],
            max_version := if rs2.version.stop > t.meta.max_version
              then rs2.version.stop else t.meta.max_version },
          version_graph := t.version_graph.add_edge rs2.version }

/-- `Tablet::capture_consistent_versions`. -/
def capture_consistent_versions (t : TabletInner) (lo hi : Int) :
    Except OlapError (List RowsetMeta) :=
  match t.version_graph.find_covering_path lo hi with
  | Option.none => .error (.missingVersions (fmtRange lo hi))
  | some path =>
    .ok (path.filterMap
      (fun v => (t.meta.rowsets.map Prod.snd).find? (fun r => r.version == v)))

/-- `Tablet::compute_compaction_score` (the count of Visible rowsets;
the compaction-type parameter is unused by the code). -/
def compute_compaction_score (t : TabletInner) : Nat :=
  (t.meta.rowsets.filter (fun p => p.2.state == RowsetState.visible)).length

/-- `Tablet::mark_rowset_stale`. -/
def mark_rowset_stale (t : TabletInner) (rowsetId : Nat) : TabletInner :=
  match t.meta.rowsets.find? (fun p => p.1 == rowsetId) with
  | Option.none => t
  | some p =>
    { meta := { t.meta with
        rowsets := t.meta.rowsets.map
          (fun q => if q.1 == rowsetId then (q.1, { q.2 with state := RowsetState.stale }) else q) },
      version_graph := t.version_graph.remove_edge p.2.version }

end TabletInner

/-- The reachable-state operations of claim C4: any interleaving of
`add_rowset` (failed inserts leave the state unchanged, as in the Rust,
which checks before mutating) and `mark_rowset_stale`. -/
inductive TabletOp where
  | add : RowsetMeta → TabletOp
  | stale : Nat → TabletOp
  deriving Repr, DecidableEq

def TabletInner.applyOp (t : TabletInner) : TabletOp → TabletInner
  | .add rs =>
    match t.add_rowset rs with
    | .ok t2 => t2
    | .error _ => t
  | .stale id2 => t.mark_rowset_stale id2

/-! ## Segment reader open (`src/segment.rs`)

`SegmentReader::open` computes `footer_start = n - 16 - footer_len` in
`usize` arithmetic: when `footer_len > n - 16` this panics (subtraction
overflow in debug builds; an out-of-range slice index in release
builds).  The embedding makes the panic an explicit outcome. -/

def MAGIC : List Nat := [79, 76, 65, 80, 83, 69, 71, 0]

def SEGMENT_VERSION : Nat := 2

structure ColumnIndexMeta where
  ordinal_offset : Nat
  ordinal_size : Nat
  zonemap_offset : Nat
  zonemap_size : Nat
  bf_offset : Nat
  bf_size : Nat
  deriving Repr, DecidableEq

structure SegmentFooter where
  num_rows : Nat
  num_columns : Nat
  short_key_offset : Nat
  short_key_size : Nat
  column_metas : List ColumnIndexMeta
  deriving Repr, DecidableEq

namespace SegmentFooter

def serialize (f : SegmentFooter) : List Nat :=
  le32 f.num_rows ++ le32 f.num_columns ++
    le64 f.short_key_offset ++ le64 f.short_key_size ++
    f.column_metas.flatMap (fun cm =>
      le64 cm.ordinal_offset ++ le64 cm.ordinal_size ++
      le64 cm.zonemap_offset ++ le64 cm.zonemap_size ++
      le64 cm.bf_offset ++ le64 cm.bf_size)

def readCms (data : List Nat) : Nat → Nat → List ColumnIndexMeta
  | 0, _ => []
  | n + 1, pos =>
    if pos + 48 > data.length then []
    else
      { ordinal_offset := fromLe64 (data.drop pos),
        ordinal_size := fromLe64 (data.drop (pos + 8)),
        zonemap_offset := fromLe64 (data.drop (pos + 16)),
        zonemap_size := fromLe64 (data.drop (pos + 24)),
        bf_offset := fromLe64 (data.drop (pos + 32)),
        bf_size := fromLe64 (data.drop (pos + 40)) } :: readCms data n (pos + 48)

def deserialize (data : List Nat) : Option SegmentFooter :=
  if data.length < 24 then Option.none
  else some
    { num_rows := fromLe32 data,
      num_columns := fromLe32 (data.drop 4),
      short_key_offset := fromLe64 (data.drop 8),
      short_key_size := fromLe64 (data.drop 16),
      column_metas := readCms data (fromLe32 (data.drop 4)) 24 }

end SegmentFooter

inductive FieldType where
  | int8 | int16 | int32 | int64 | float32 | float64 | bytes | date
  deriving Repr, DecidableEq

structure ColumnMeta where
  column_id : Nat
  name : List Nat
  field_type : FieldType
  is_nullable : Bool
  encoding : EncodingType
  compression : CompressionType
  max_length : Nat
  deriving Repr, DecidableEq

structure SegmentReader where
  data : List Nat
  footer : SegmentFooter
  schema : List ColumnMeta
  deriving Repr, DecidableEq

/-- The outcome of `SegmentReader::open`, with Rust panics explicit. -/
inductive OpenResult where
  | ok : SegmentReader → OpenResult
  | err : OlapError → OpenResult
  | panic : OpenResult
  deriving Repr, DecidableEq

/-- `SegmentReader::open`. -/
def SegmentReader.open (data : List Nat) (schema : List ColumnMeta) :
    OpenResult :=
  let n := data.length
  if n < 20 ∨ data.drop (n - 8) ≠ MAGIC then
    .err (.segmentIo (Value.strBytes "invalid segment magic"))
  else
    let footerLen := fromLe32 (data.drop (n - 12))
    let footerCrc := fromLe32 (data.drop (n - 16))
    if 16 + footerLen > n then .panic
    else
      let footerBytes := (data.drop (n - 16 - footerLen)).take footerLen
      if crc32 footerBytes ≠ footerCrc then .err .checksumMismatch
      else
        match SegmentFooter.deserialize footerBytes with
        | some f => .ok ⟨data, f, schema⟩
        | Option.none => .err (.segmentIo (Value.strBytes "cannot parse footer"))

/-- The fold the code effectively maintains: the maximum of `-1` and the
`version.end` of the given rowsets. -/
def maxStopFold (l : List RowsetMeta) : Int :=
  l.foldl (fun m r => max m r.version.stop) (-1)

/-- The right-hand side of the claimed invariant: max over Visible rowsets. -/
def visibleMaxVersion (t : TabletInner) : Int :=
  maxStopFold ((t.meta.rowsets.map Prod.snd).filter
    (fun r => r.state == RowsetState.visible))

/-- The right-hand side of the amended invariant: max over all rowsets. -/
def allMaxVersion (t : TabletInner) : Int :=
  maxStopFold (t.meta.rowsets.map Prod.snd)

/-- Consecutive chains of versions from `lo` ending exactly at `hi`
(edges may be degenerate, matching what BFS paths can contain). -/
def ChainFrom (lo hi : Int) : List Version → Prop
  | [] => False
  | [v] => v.start = lo ∧ v.stop = hi
  | v :: w :: rest => v.start = lo ∧ ChainFrom (v.stop + 1) hi (w :: rest)

/-- Executable form of "the versions form a partition of `[lo,hi]`":
a consecutive run of well-formed intervals from `lo` to `hi`. -/
def isConsecutiveRun (lo hi : Int) : List Version → Bool
  | [] => false
  | [v] => v.start == lo && lo ≤ v.stop && v.stop == hi
  | v :: w :: rest =>
    v.start == lo && lo ≤ v.stop && isConsecutiveRun (v.stop + 1) hi (w :: rest)

/-- The invariant carried by every BFS queue entry: the accumulated path
is a consecutive chain of graph edges from `lo` whose next node is the
entry's first component (or the entry is the untouched start). -/
def QEntry (g : VersionGraph) (lo : Int) (q : Int × List Version) : Prop :=
  (q.2 = [] ∧ q.1 = lo) ∨
  (ChainFrom lo (q.1 - 1) q.2 ∧ ∀ v ∈ q.2, v ∈ g.edges)

/-- Sorted consecutive chains of non-degenerate versions reaching `hi`. -/
inductive SortedChain (hi : Int) : Int → List Version → Prop where
  | last (s : Int) : s ≤ hi → SortedChain hi s [⟨s, hi⟩]
  | cons (s e : Int) (rest : List Version) : s ≤ e → e < hi →
      SortedChain hi (e + 1) rest → SortedChain hi s (⟨s, e⟩ :: rest)

/-- Publishing a sequence of rowsets (`Tablet::add_rowset` for each, as
`publish_rowset` delegates), stopping at the first error. -/
def publishAll (t : TabletInner) : List RowsetMeta → Except OlapError TabletInner
  | [] => .ok t
  | rs :: rest =>
    match t.add_rowset rs with
    | .ok t2 => publishAll t2 rest
    | .error e => .error e

/-! ## Bloom filter, zone map, short-key index (`src/index/mod.rs`) -/

structure BloomFilter where
  bits : List Nat
  num_bits : Nat
  deriving Repr, DecidableEq

namespace BloomFilter

def new (expectedNdv : Nat) : BloomFilter :=
  let numBits := max (expectedNdv * 10) 64
  ⟨List.replicate ((numBits + 7) / 8) 0, numBits⟩

/-- The double-FNV probe positions (all `u64` arithmetic wraps). -/
def probeBits (value : List Nat) : List Nat :=
  let h1 := value.foldl
    (fun h b => ((h ^^^ b) * 0x100000001b3) % 2 ^ 64) 0xcbf29ce484222325
  let h2 := value.foldl
    (fun h b => ((h ^^^ b) * 0x00000100000001b3) % 2 ^ 64) 0x517cc1b727220a95
  let nb := (h1 + ((h2 >>> 32) ^^^ h2)) % 2 ^ 64
  (List.range 7).map (fun i => ((nb + i * h1 % 2 ^ 64) % 2 ^ 64) % max h1 1)

def add (bf : BloomFilter) (value : List Nat) : BloomFilter :=
  ⟨(probeBits value).foldl
    (fun bits bit =>
      let bit2 := bit % bf.num_bits
      bits.set (bit2 / 8) (bits.getD (bit2 / 8) 0 ||| (1 <<< (bit2 % 8))))
    bf.bits, bf.num_bits⟩

def serialize (bf : BloomFilter) : List Nat := le32 bf.num_bits ++ bf.bits

end BloomFilter

structure ZoneMapEntry where
  page_idx : Nat
  min : List Nat
  max : List Nat
  has_null : Bool
  deriving Repr, DecidableEq

structure ZoneMapIndex where
  entries : List ZoneMapEntry
  deriving Repr, DecidableEq

namespace ZoneMapIndex

def add_page (zm : ZoneMapIndex) (pageIdx : Nat) (mn mx : List Nat)
    (hasNull : Bool) : ZoneMapIndex :=
  ⟨zm.entries ++ [⟨pageIdx, mn, mx, hasNull⟩]⟩

def serialize (zm : ZoneMapIndex) : List Nat :=
  le32 zm.entries.length ++
    zm.entries.flatMap (fun e =>
      le32 e.page_idx ++ [if e.has_null then 1 else 0] ++
      le32 e.min.length ++ e.min ++ le32 e.max.length ++ e.max)

end ZoneMapIndex

structure ShortKeyIndex where
  entries : List (Nat × List Nat)
  deriving Repr, DecidableEq

namespace ShortKeyIndex

def SHORT_KEY_INTERVAL : Nat := 1024

def maybe_add (idx : ShortKeyIndex) (rowId : Nat) (keyPfx : List Nat) :
    ShortKeyIndex :=
  if rowId % SHORT_KEY_INTERVAL = 0 then ⟨idx.entries ++ [(rowId, keyPfx)]⟩
  else idx

def serialize (idx : ShortKeyIndex) : List Nat :=
  le32 idx.entries.length ++
    idx.entries.flatMap (fun e => le32 e.1 ++ le32 e.2.length ++ e.2)

end ShortKeyIndex

/-! ## Column writer (`src/column_writer.rs`) -/

structure PageBuilderState where
  first_row_id : Nat
  values : List Value
  deriving Repr, DecidableEq

structure ColumnWriter where
  meta : ColumnMeta
  pages : List (List Nat)
  current : PageBuilderState
  next_row_id : Nat
  page_min : Option (List Nat)
  page_max : Option (List Nat)
  page_ordinal : Nat
  data_offset : Nat
  ordinal_index : OrdinalIndex
  zone_map : ZoneMapIndex
  bloom_filter : BloomFilter
  deriving Repr, DecidableEq

namespace ColumnWriter

def new (meta : ColumnMeta) : ColumnWriter :=
  { meta := meta, pages := [], current := ⟨0, []⟩, next_row_id := 0,
    page_min := Option.none, page_max := Option.none, page_ordinal := 0,
    data_offset := 0, ordinal_index := ⟨[]⟩, zone_map := ⟨[]⟩,
    bloom_filter := BloomFilter.new 4096 }

def flush_page (lz : Lz4) (cw : ColumnWriter) : Except OlapError ColumnWriter := do
  let firstRid := cw.current.first_row_id
  let bytes ← pageBuild lz firstRid cw.meta.encoding cw.meta.compression
    cw.current.values
  .ok { cw with
    current := ⟨cw.next_row_id, []⟩,
    pages := cw.pages ++ [bytes],
    ordinal_index := cw.ordinal_index.add firstRid cw.data_offset,
    zone_map := cw.zone_map.add_page cw.page_ordinal (cw.page_min.getD [])
      (cw.page_max.getD []) false,
    page_min := Option.none, page_max := Option.none,
    data_offset := cw.data_offset + bytes.length,
    page_ordinal := cw.page_ordinal + 1 }

def add_value (lz : Lz4) (cw : ColumnWriter) (value : Value) :
    Except OlapError ColumnWriter :=
  let key := value.to_sort_key
  let cw2 : ColumnWriter := { cw with
    bloom_filter := cw.bloom_filter.add key,
    page_min := if (cw.page_min.map (fun m => lexLt key m)).getD true
      then some key else cw.page_min,
    page_max := if (cw.page_max.map (fun m => lexLt m key)).getD true
      then some key else cw.page_max,
    current := ⟨cw.current.first_row_id, cw.current.values ++ [value]⟩,
    next_row_id := cw.next_row_id + 1 }
  if PAGE_MAX_ROWS ≤ cw2.current.values.length then cw2.flush_page lz
  else .ok cw2

def finalize (lz : Lz4) (cw : ColumnWriter) :
    Except OlapError (List Nat × Nat) := do
  let cw2 ← if cw.current.values.isEmpty then .ok cw else cw.flush_page lz
  let data := cw2.pages.flatten
  .ok (data, data.length)

end ColumnWriter

/-! ## Segment writer and column read-back (`src/segment.rs`) -/

structure SegmentWriter where
  schema : List ColumnMeta
  col_writers : List ColumnWriter
  sk_index : ShortKeyIndex
  num_rows : Nat
  key_col_ids : List Nat
  deriving Repr, DecidableEq

namespace SegmentWriter

def new (schema : List ColumnMeta) : SegmentWriter :=
  { schema := schema, col_writers := schema.map ColumnWriter.new,
    sk_index := ⟨[]⟩, num_rows := 0,
    key_col_ids := List.range schema.length }

/-- The per-column loop in `append_row` (index-paired; the arity was
checked first, so the second pattern of unequal lengths is unreachable). -/
def addValues (lz : Lz4) : List ColumnWriter → List Value →
    Except OlapError (List ColumnWriter)
  | [], _ => .ok []
  | _ :: _, [] => .error .schemaMismatch
  | cw :: cws, v :: vs => do
    let cw2 ← cw.add_value lz v
    let rest ← addValues lz cws vs
    .ok (cw2 :: rest)

def append_row (lz : Lz4) (w : SegmentWriter) (row : List Value) :
    Except OlapError SegmentWriter :=
  if row.length ≠ w.col_writers.length then .error .schemaMismatch
  else do
    let keyVals := w.key_col_ids.filterMap (fun i => row.get? i)
    let keyPfx := keyVals.flatMap Value.to_sort_key
    let cws ← addValues lz w.col_writers row
    .ok { w with
      sk_index := w.sk_index.maybe_add w.num_rows keyPfx,
      col_writers := cws,
      num_rows := w.num_rows + 1 }

/-- Finalising each column: the three indexes are read BEFORE
`ColumnWriter::finalize` flushes the trailing page, exactly as the Rust
clones them before the call. -/
def colDatas (lz : Lz4) : List ColumnWriter →
    Except OlapError (List (OrdinalIndex × ZoneMapIndex × BloomFilter × List Nat))
  | [] => .ok []
  | cw :: rest => do
    let d ← cw.finalize lz
    let r ← colDatas lz rest
    .ok ((cw.ordinal_index, cw.zone_map, cw.bloom_filter, d.1) :: r)

/-- The index-region serialisation with running absolute offsets. -/
def idxRegion : Nat →
    List (OrdinalIndex × ZoneMapIndex × BloomFilter × List Nat) →
    List Nat × List ColumnIndexMeta × Nat
  | pos, [] => ([], [], pos)
  | pos, (ord, zm, bf, _) :: rest =>
    let ob := ord.serialize
    let zb := zm.serialize
    let bb := bf.serialize
    let cm : ColumnIndexMeta :=
      ⟨pos, ob.length, pos + ob.length, zb.length,
       pos + ob.length + zb.length, bb.length⟩
    let r := idxRegion (pos + ob.length + zb.length + bb.length) rest
    (ob ++ zb ++ bb ++ r.1, cm :: r.2.1, r.2.2)

def finalize (lz : Lz4) (w : SegmentWriter) :
    Except OlapError (List Nat × Nat) := do
  let cols ← colDatas lz w.col_writers
  let dataRegion := (cols.map (fun c => c.2.2.2)).flatten
  let posAfterData := 12 + dataRegion.length
  let r := idxRegion posAfterData cols
  let skBytes := w.sk_index.serialize
  let footer : SegmentFooter :=
    ⟨w.num_rows, w.col_writers.length, r.2.2, skBytes.length, r.2.1⟩
  let fb := footer.serialize
  .ok (MAGIC ++ le32 SEGMENT_VERSION ++ dataRegion ++ r.1 ++ skBytes ++
        fb ++ le32 (crc32 fb) ++ le32 fb.length ++ MAGIC,
      r.2.2 + skBytes.length + fb.length + 16)

end SegmentWriter

def SegmentReader.num_rows (r : SegmentReader) : Nat := r.footer.num_rows

/-- The page loop of `read_column` (first argument counts the remaining
pages, second is the current page index). -/
def readPages (lz : Lz4) (r : SegmentReader) (cm : ColumnIndexMeta)
    (meta : ColumnMeta) (ord : OrdinalIndex) : Nat → Nat → List Value
  | 0, _ => []
  | n + 1, pageIdx =>
    let pageOff := (ord.find_page_offset (pageIdx * 1024)).getD 0
    let nextOff := if pageIdx + 1 < ord.page_count then
        (ord.find_page_offset ((pageIdx + 1) * 1024)).getD cm.ordinal_offset
      else cm.ordinal_offset
    let rest := readPages lz r cm meta ord n (pageIdx + 1)
    if nextOff ≤ pageOff ∨ r.data.length < nextOff then rest
    else
      match pageDecode lz ((r.data.drop pageOff).take (nextOff - pageOff))
          meta.encoding meta.compression with
      | .ok d => d.values ++ rest
      | .error _ => rest

/-- `SegmentReader::read_column`.  The index-slice bounds produced by the
writer are within the buffer, so the Rust range slicing is embedded as
`drop`/`take`. -/
def SegmentReader.read_column (lz : Lz4) (r : SegmentReader) (colIdx : Nat) :
    Except OlapError (List Value) :=
  match r.footer.column_metas.get? colIdx with
  | Option.none => .error (.segmentIo
      (Value.strBytes "col " ++ Value.natDigits colIdx ++
        Value.strBytes " not found"))
  | some cm =>
    match r.schema.get? colIdx with
    | Option.none => .error (.segmentIo (Value.strBytes "schema mismatch"))
    | some meta =>
      let ordData := (r.data.drop cm.ordinal_offset).take cm.ordinal_size
      let ordIndex := OrdinalIndex.deserialize ordData
      .ok (readPages lz r cm meta ordIndex ordIndex.page_count 0)

/-! ## A concrete one-row segment, used to evaluate the write/read
round-trip.  One Int64 column, DeltaBinary encoding, no compression; the
single row `[Int64 7]`. -/

def c1Meta : ColumnMeta :=
  ⟨0, Value.strBytes "c", FieldType.int64, false, EncodingType.deltaBinary,
    CompressionType.none, 65535⟩

/-- An identity stand-in for the external LZ4 crate (valid for pages of
`CompressionType.none`, where the crate is never called). -/
def c1Lz : Lz4 := ⟨fun d => .ok d, fun d _ => .ok d⟩

def c1Key : List Nat := (Value.int64 7).to_sort_key

def c1Bloom : BloomFilter := (BloomFilter.new 4096).add c1Key

/-- The single delta-encoded, uncompressed page the writer produces. -/
def c1Page : List Nat :=
  [1, 0, 0, 0, 0, 0, 0, 0, 8, 0, 0, 0, 0, 7, 0, 0, 0, 0, 0, 0, 0,
   97, 156, 24, 142]

/-- The serialized short-key index: one entry `(0, c1Key)`. -/
def c1Sk : List Nat :=
  [1, 0, 0, 0, 0, 0, 0, 0, 8, 0, 0, 0, 0, 0, 0, 0, 0, 0, 0, 7]

def c1Footer : SegmentFooter := ⟨1, 1, 5169, 20, [⟨37, 4, 41, 4, 45, 5124⟩]⟩

def c1Fb : List Nat := SegmentFooter.serialize c1Footer

/-- The column writer state after the single `add_value` (no page has
been flushed: one row is fewer than `PAGE_MAX_ROWS`). -/
def c1Cw : ColumnWriter :=
  { meta := c1Meta, pages := [], current := ⟨0, [Value.int64 7]⟩,
    next_row_id := 1, page_min := some c1Key, page_max := some c1Key,
    page_ordinal := 0, data_offset := 0, ordinal_index := ⟨[]⟩,
    zone_map := ⟨[]⟩, bloom_filter := c1Bloom }

/-- The segment writer state after `append_row [Int64 7]`. -/
def c1W : SegmentWriter :=
  { schema := [c1Meta], col_writers := [c1Cw], sk_index := ⟨[(0, c1Key)]⟩,
    num_rows := 1, key_col_ids := [0] }

/-- The full serialized segment: header, data region (one page), index
region (empty ordinal, empty zone map, bloom filter), short-key index,
footer, footer CRC, footer length, trailing magic. -/
def c1Data : List Nat :=
  MAGIC ++ le32 2 ++ c1Page ++ [0, 0, 0, 0] ++ [0, 0, 0, 0] ++
    le32 40960 ++ c1Bloom.bits ++ c1Sk ++ c1Fb ++ le32 (crc32 c1Fb) ++
    le32 c1Fb.length ++ MAGIC

def c1Reader : SegmentReader := ⟨c1Data, c1Footer, [c1Meta]⟩

/-! ## Theorems.  Basic facts about the byte serialisers first. -/

theorem le32_length (n : Nat) : (le32 n).length = 4 := rfl

theorem le64_length (n : Nat) : (le64 n).length = 8 := rfl

theorem le32_bytes_lt (n : Nat) : ∀ b ∈ le32 n, b < 256 := by
  intro b hb
  simp only [le32, List.mem_cons, List.not_mem_nil, or_false] at hb
  rcases hb with h | h | h | h <;> subst h <;> exact Nat.mod_lt _ (by norm_num)

theorem le64_bytes_lt (n : Nat) : ∀ b ∈ le64 n, b < 256 := by
  intro b hb
  simp only [le64, List.mem_cons, List.not_mem_nil, or_false] at hb
  rcases hb with h | h | h | h | h | h | h | h <;> subst h <;>
    exact Nat.mod_lt _ (by norm_num)

theorem fromLe32_le32 (n : Nat) (h : n < 2 ^ 32) : fromLe32 (le32 n) = n := by
  simp only [le32, fromLe32, List.getD_cons_zero, List.getD_cons_succ]
  omega

theorem fromLe64_le64 (n : Nat) (h : n < 2 ^ 64) : fromLe64 (le64 n) = n := by
  simp only [le64, fromLe64, List.getD_cons_zero, List.getD_cons_succ]
  omega

theorem toI64_u64repr (x : Int) (h1 : -2 ^ 63 ≤ x) (h2 : x < 2 ^ 63) :
    toI64 (u64repr x) = x := by
  simp only [toI64, u64repr]
  omega

theorem u64repr_lt (x : Int) : u64repr x < 2 ^ 64 := by
  simp only [u64repr]; omega

/-! ### CRC32: the state step is a bijection on 32-bit states, so a
single flipped byte always changes the final checksum. -/

theorem bitstep_lt {c : Nat} (h : c < 2 ^ 32) : bitstep c < 2 ^ 32 := by
  unfold bitstep
  split_ifs
  · exact Nat.xor_lt_two_pow (by omega) (by norm_num [crcPoly])
  · omega

theorem iterate_bitstep_lt (n : Nat) {c : Nat} (h : c < 2 ^ 32) :
    bitstep^[n] c < 2 ^ 32 := by
  induction n generalizing c with
  | zero => simpa using h
  | succ n ih => rw [Function.iterate_succ_apply]; exact ih (bitstep_lt h)

theorem bitstep_inj {c1 c2 : Nat} (h1 : c1 < 2 ^ 32) (h2 : c2 < 2 ^ 32)
    (h : bitstep c1 = bitstep c2) : c1 = c2 := by
  have hp : Nat.testBit crcPoly 31 = true := by decide
  unfold bitstep at h
  split_ifs at h with p1 p2 p2
  · have := Nat.xor_left_inj.mp h
    omega
  · exfalso
    have h31 : (c1 / 2 ^^^ crcPoly).testBit 31 = true := by
      rw [Nat.testBit_xor, Nat.testBit_eq_false_of_lt (show c1 / 2 < 2 ^ 31 by omega), hp]
      rfl
    rw [h, Nat.testBit_eq_false_of_lt (show c2 / 2 < 2 ^ 31 by omega)] at h31
    exact Bool.noConfusion h31
  · exfalso
    have h31 : (c2 / 2 ^^^ crcPoly).testBit 31 = true := by
      rw [Nat.testBit_xor, Nat.testBit_eq_false_of_lt (show c2 / 2 < 2 ^ 31 by omega), hp]
      rfl
    rw [← h, Nat.testBit_eq_false_of_lt (show c1 / 2 < 2 ^ 31 by omega)] at h31
    exact Bool.noConfusion h31
  · omega

theorem iterate_bitstep_inj (n : Nat) {c1 c2 : Nat} (h1 : c1 < 2 ^ 32)
    (h2 : c2 < 2 ^ 32) (h : bitstep^[n] c1 = bitstep^[n] c2) : c1 = c2 := by
  induction n generalizing c1 c2 with
  | zero => simpa using h
  | succ n ih =>
    rw [Function.iterate_succ_apply, Function.iterate_succ_apply] at h
    exact bitstep_inj h1 h2 (ih (bitstep_lt h1) (bitstep_lt h2) h)

theorem stepByte_lt {c b : Nat} (hc : c < 2 ^ 32) (hb : b < 2 ^ 32) :
    stepByte c b < 2 ^ 32 :=
  iterate_bitstep_lt 8 (Nat.xor_lt_two_pow hc hb)

theorem stepByte_state_inj {c1 c2 b : Nat} (h1 : c1 < 2 ^ 32) (h2 : c2 < 2 ^ 32)
    (hb : b < 2 ^ 32) (h : stepByte c1 b = stepByte c2 b) : c1 = c2 := by
  have := iterate_bitstep_inj 8 (Nat.xor_lt_two_pow h1 hb)
    (Nat.xor_lt_two_pow h2 hb) h
  exact Nat.xor_left_inj.mp this

theorem stepByte_byte_ne {c b1 b2 : Nat} (hc : c < 2 ^ 32) (hb1 : b1 < 2 ^ 32)
    (hb2 : b2 < 2 ^ 32) (hne : b1 ≠ b2) : stepByte c b1 ≠ stepByte c b2 := by
  intro h
  exact hne (Nat.xor_right_inj.mp
    (iterate_bitstep_inj 8 (Nat.xor_lt_two_pow hc hb1)
      (Nat.xor_lt_two_pow hc hb2) h))

theorem foldl_stepByte_lt (l : List Nat) (hl : ∀ x ∈ l, x < 2 ^ 32)
    {c : Nat} (hc : c < 2 ^ 32) : l.foldl stepByte c < 2 ^ 32 := by
  induction l generalizing c with
  | nil => simpa using hc
  | cons x xs ih =>
    exact ih (fun y hy => hl y (List.mem_cons_of_mem _ hy))
      (stepByte_lt hc (hl x (List.mem_cons_self _ _)))

theorem foldl_stepByte_ne (l : List Nat) (hl : ∀ x ∈ l, x < 2 ^ 32)
    {c1 c2 : Nat} (h1 : c1 < 2 ^ 32) (h2 : c2 < 2 ^ 32) (hne : c1 ≠ c2) :
    l.foldl stepByte c1 ≠ l.foldl stepByte c2 := by
  induction l generalizing c1 c2 with
  | nil => simpa using hne
  | cons x xs ih =>
    have hx := hl x (List.mem_cons_self _ _)
    exact ih (fun y hy => hl y (List.mem_cons_of_mem _ hy))
      (stepByte_lt h1 hx) (stepByte_lt h2 hx)
      (fun h => hne (stepByte_state_inj h1 h2 hx h))

theorem crc32_lt (l : List Nat) (hl : ∀ x ∈ l, x < 2 ^ 32) :
    crc32 l < 2 ^ 32 := by
  unfold crc32
  exact Nat.xor_lt_two_pow (foldl_stepByte_lt l hl (by norm_num)) (by norm_num)

/-- A CRC32 over two byte strings that differ in exactly one byte never
collides. -/
theorem crc32_flip_ne (pre suf : List Nat) (b1 b2 : Nat)
    (hpre : ∀ x ∈ pre, x < 2 ^ 32) (hsuf : ∀ x ∈ suf, x < 2 ^ 32)
    (hb1 : b1 < 2 ^ 32) (hb2 : b2 < 2 ^ 32) (hne : b1 ≠ b2) :
    crc32 (pre ++ b1 :: suf) ≠ crc32 (pre ++ b2 :: suf) := by
  unfold crc32
  intro h
  have h2 := Nat.xor_left_inj.mp h
  rw [List.foldl_append, List.foldl_append] at h2
  simp only [List.foldl_cons] at h2
  have hs : pre.foldl stepByte 0xFFFFFFFF < 2 ^ 32 :=
    foldl_stepByte_lt pre hpre (by norm_num)
  exact foldl_stepByte_ne suf hsuf (stepByte_lt hs hb1) (stepByte_lt hs hb2)
    (stepByte_byte_ne hs hb1 hb2 hne) h2

/-- A four-byte little-endian field that changes in one byte parses to a
different `u32` (no byte bounds are needed: the other three summands are
identical). -/
theorem fromLe32_flip_ne (p s : List Nat) (b1 b2 : Nat) (hp : p.length < 4)
    (hne : b1 ≠ b2) : fromLe32 (p ++ b1 :: s) ≠ fromLe32 (p ++ b2 :: s) := by
  rcases p with _ | ⟨a, _ | ⟨c, _ | ⟨d, _ | ⟨e, rest⟩⟩⟩⟩
  · simp only [List.nil_append, fromLe32, List.getD_cons_zero, List.getD_cons_succ]
    omega
  · simp only [List.cons_append, List.nil_append, fromLe32, List.getD_cons_zero,
      List.getD_cons_succ]
    omega
  · simp only [List.cons_append, List.nil_append, fromLe32, List.getD_cons_zero,
      List.getD_cons_succ]
    omega
  · simp only [List.cons_append, List.nil_append, fromLe32, List.getD_cons_zero,
      List.getD_cons_succ]
    omega
  · simp only [List.length_cons] at hp; omega

/-- Decoding a page whose bytes carry a valid trailing CRC fails with
`ChecksumMismatch` after any single-byte change. -/
theorem pageDecode_flip (lz : Lz4) (enc : EncodingType) (comp : CompressionType)
    (pre suf : List Nat) (b1 b2 : Nat)
    (hb : ∀ x ∈ pre ++ b1 :: suf, x < 256) (hb2 : b2 < 256) (hne : b1 ≠ b2)
    (hlen : 17 ≤ pre.length + suf.length + 1)
    (hcrc : fromLe32 ((pre ++ b1 :: suf).drop (pre.length + suf.length + 1 - 4)) =
      crc32 ((pre ++ b1 :: suf).take (pre.length + suf.length + 1 - 4))) :
    pageDecode lz (pre ++ b2 :: suf) enc comp = .error .checksumMismatch := by
  have hpre : ∀ x ∈ pre, x < 256 :=
    fun x hx => hb x (List.mem_append_left _ hx)
  have hsuf : ∀ x ∈ suf, x < 256 :=
    fun x hx => hb x (List.mem_append_right _ (List.mem_cons_of_mem _ hx))
  have hb1 : b1 < 256 := hb b1 (List.mem_append_right _ (List.mem_cons_self _ _))
  have hlen1 : (pre ++ b1 :: suf).length = pre.length + suf.length + 1 := by
    simp [List.length_append]; omega
  have hlen2 : (pre ++ b2 :: suf).length = pre.length + suf.length + 1 := by
    simp [List.length_append]; omega
  have hnotshort : ¬ (pre ++ b2 :: suf).length < 17 := by omega
  have hmain : fromLe32 ((pre ++ b2 :: suf).drop ((pre ++ b2 :: suf).length - 4)) ≠
      crc32 ((pre ++ b2 :: suf).take ((pre ++ b2 :: suf).length - 4)) := by
    rw [hlen2]
    by_cases hcase : 4 ≤ suf.length
    · -- the flipped byte is under the CRC; the stored CRC is unchanged
      have hdrop : ∀ b : Nat, (pre ++ b :: suf).drop (pre.length + suf.length + 1 - 4) =
          suf.drop (suf.length - 4) := by
        intro b
        rw [List.drop_append_eq_append_drop,
          List.drop_eq_nil_of_le (by omega : pre.length ≤ pre.length + suf.length + 1 - 4),
          List.nil_append]
        have : pre.length + suf.length + 1 - 4 - pre.length = (suf.length - 4) + 1 := by
          omega
        rw [this, List.drop_succ_cons]
      have htake : ∀ b : Nat, (pre ++ b :: suf).take (pre.length + suf.length + 1 - 4) =
          pre ++ b :: suf.take (suf.length - 4) := by
        intro b
        rw [List.take_append_eq_append_take,
          List.take_of_length_le (by omega : pre.length ≤ pre.length + suf.length + 1 - 4)]
        have : pre.length + suf.length + 1 - 4 - pre.length = (suf.length - 4) + 1 := by
          omega
        rw [this, List.take_succ_cons]
      rw [hdrop b2, htake b2, ← hdrop b1, hcrc, htake b1]
      intro h
      exact crc32_flip_ne pre (suf.take (suf.length - 4)) b1 b2
        (fun x hx => lt_trans (hpre x hx) (by norm_num))
        (fun x hx => lt_trans (hsuf x (List.mem_of_mem_take hx)) (by norm_num))
        (lt_trans hb1 (by norm_num)) (lt_trans hb2 (by norm_num)) hne h
    · -- the flipped byte sits inside the stored CRC field
      have htake : ∀ b : Nat, (pre ++ b :: suf).take (pre.length + suf.length + 1 - 4) =
          pre.take (pre.length + suf.length + 1 - 4) := by
        intro b
        rw [List.take_append_eq_append_take,
          (by omega : pre.length + suf.length + 1 - 4 - pre.length = 0),
          List.take_zero, List.append_nil]
      have hdrop : ∀ b : Nat, (pre ++ b :: suf).drop (pre.length + suf.length + 1 - 4) =
          pre.drop (pre.length + suf.length + 1 - 4) ++ b :: suf := by
        intro b
        rw [List.drop_append_eq_append_drop,
          (by omega : pre.length + suf.length + 1 - 4 - pre.length = 0),
          List.drop_zero]
      rw [htake b2, hdrop b2, ← htake b1, ← hcrc, hdrop b1]
      have hplen : (pre.drop (pre.length + suf.length + 1 - 4)).length < 4 := by
        rw [List.length_drop]; omega
      exact fromLe32_flip_ne _ suf b2 b1 hplen (Ne.symm hne)
  unfold pageDecode
  rw [if_neg hnotshort, if_pos hmain]

/-- Byte boundedness of a built page. -/
theorem pageFrame_bytes_lt (count frid usz : Nat) (payload : List Nat)
    (hp : ∀ x ∈ payload, x < 256) :
    ∀ x ∈ pageFrame count frid usz payload, x < 256 := by
  intro x hx
  unfold pageFrame at hx
  simp only [List.mem_append, List.mem_cons, List.mem_singleton] at hx
  rcases hx with ((((h | h) | h) | h) | h) | h
  · exact le32_bytes_lt _ x h
  · exact le32_bytes_lt _ x h
  · exact le32_bytes_lt _ x h
  · simp at h; omega
  · exact hp x h
  · exact le32_bytes_lt _ x h

theorem pageFrame_length (count frid usz : Nat) (payload : List Nat) :
    (pageFrame count frid usz payload).length = 17 + payload.length := by
  unfold pageFrame
  simp [List.length_append, le32, le64]
  omega

/-- The page frame stores, in its trailing four bytes, the CRC32 of
everything before them. -/
theorem pageFrame_crc_valid (count frid usz : Nat) (payload : List Nat)
    (hp : ∀ x ∈ payload, x < 256) :
    fromLe32 ((pageFrame count frid usz payload).drop
        ((pageFrame count frid usz payload).length - 4)) =
      crc32 ((pageFrame count frid usz payload).take
        ((pageFrame count frid usz payload).length - 4)) := by
  unfold pageFrame
  set body := le32 count ++ le32 frid ++ le32 usz ++ [0] ++ payload with hbody
  have hblen : (body ++ le32 (crc32 body)).length - 4 = body.length := by
    simp [List.length_append, le32]
  rw [hblen]
  rw [List.drop_left, List.take_left]
  have hbb : ∀ x ∈ body, x < 2 ^ 32 := by
    intro x hx
    have : x < 256 := by
      rw [hbody] at hx
      simp only [List.mem_append, List.mem_cons, List.mem_singleton] at hx
      rcases hx with (((h | h) | h) | h) | h
      · exact le32_bytes_lt _ x h
      · exact le32_bytes_lt _ x h
      · exact le32_bytes_lt _ x h
      · simp at h; omega
      · exact hp x h
    omega
  exact fromLe32_le32 _ (crc32_lt body hbb)

/-- Claim C8: for every page produced by `PageBuilder::build` (its shape
is `pageFrame` around an arbitrary compressed payload, so the statement
quantifies over the payload and over the external LZ4 implementation),
flipping a single bit at any position — the position is given as a
decomposition `page = pre ++ b :: suf` and a bit index `k < 8` — makes
`PageDecoder::decode` return `ChecksumMismatch`, including flips inside
the stored CRC field itself. -/
theorem page_single_bit_flip_checksum (lz : Lz4) (enc : EncodingType)
    (comp : CompressionType) (count frid usz : Nat) (payload pre suf : List Nat)
    (b k : Nat) (hp : ∀ x ∈ payload, x < 256) (hk : k < 8)
    (hsplit : pageFrame count frid usz payload = pre ++ b :: suf) :
    pageDecode lz (pre ++ (b ^^^ 2 ^ k) :: suf) enc comp =
      .error .checksumMismatch := by
  have hbytes : ∀ x ∈ pre ++ b :: suf, x < 256 := by
    rw [← hsplit]; exact pageFrame_bytes_lt count frid usz payload hp
  have hb : b < 256 := hbytes b (List.mem_append_right _ (List.mem_cons_self _ _))
  have hpow : (2 : Nat) ^ k < 256 := by
    calc (2 : Nat) ^ k < 2 ^ 8 := Nat.pow_lt_pow_right (by norm_num) hk
    _ = 256 := by norm_num
  have hb2 : b ^^^ 2 ^ k < 256 := by
    have := Nat.xor_lt_two_pow (n := 8) (by simpa using hb) (by simpa using hpow)
    simpa using this
  have hne : b ≠ b ^^^ 2 ^ k := by
    intro h
    have h0 : b ^^^ 0 = b ^^^ 2 ^ k := by rw [Nat.xor_zero]; exact h
    have h1 := Nat.xor_right_inj.mp h0
    have h2 : 0 < (2 : Nat) ^ k := Nat.pos_pow_of_pos k (by norm_num)
    omega
  have hlenf := pageFrame_length count frid usz payload
  have hleneq : (pageFrame count frid usz payload).length =
      pre.length + suf.length + 1 := by
    rw [hsplit]; simp [List.length_append]; omega
  have hlen : 17 ≤ pre.length + suf.length + 1 := by omega
  have hcrc0 := pageFrame_crc_valid count frid usz payload hp
  rw [hleneq, hsplit] at hcrc0
  exact pageDecode_flip lz enc comp pre suf b (b ^^^ 2 ^ k) hbytes hb2 hne hlen hcrc0

/-- Claim C8 (witness): a concrete page of one byte of payload, with the
first byte's lowest bit flipped, decoded with an identity stand-in for
the external LZ4 codec. -/
theorem page_single_bit_flip_checksum_witness :
    pageDecode ⟨fun d => .ok d, fun d _ => .ok d⟩
      ([] ++ ((pageFrame 1 0 1 [171]).headI ^^^ 2 ^ 0) ::
        (pageFrame 1 0 1 [171]).tail) .plain .none = .error .checksumMismatch :=
  page_single_bit_flip_checksum ⟨fun d => .ok d, fun d _ => .ok d⟩ .plain .none
    1 0 1 [171] [] (pageFrame 1 0 1 [171]).tail (pageFrame 1 0 1 [171]).headI 0
    (by decide) (by norm_num) (by rfl)

theorem i64fromLe_i64le_append (x : Int) (r : List Nat) :
    i64fromLe (i64le x ++ r) = toI64 (u64repr x) := by
  simp only [i64fromLe, i64le, le64, fromLe64, List.cons_append, List.nil_append,
    List.getD_cons_zero, List.getD_cons_succ]
  have h := u64repr_lt x
  congr 1
  omega

theorem i64fromLe_i64le (x : Int) : i64fromLe (i64le x) = toI64 (u64repr x) := by
  have := i64fromLe_i64le_append x []
  simpa using this

theorem wrap_idem (a x : Int) (h1 : -2 ^ 63 ≤ x) (h2 : x < 2 ^ 63) :
    toI64 (u64repr (a + toI64 (u64repr (x - a)))) = x := by
  simp only [toI64, u64repr]
  split_ifs <;> omega

theorem delta_decodeLoop_encodeDeltas (rest : List Int) (prev : Int)
    (hr : ∀ x ∈ rest, -2 ^ 63 ≤ x ∧ x < 2 ^ 63) :
    delta.decodeLoop rest.length prev (delta.encodeDeltas prev rest) =
      rest.map Value.int64 := by
  induction rest generalizing prev with
  | nil => rfl
  | cons x rest ih =>
    have hx := hr x (List.mem_cons_self _ _)
    have hlen : 8 ≤ (i64le (x - prev) ++ delta.encodeDeltas x rest).length := by
      simp [i64le, le64]
    have hfrom : i64fromLe (i64le (x - prev) ++ delta.encodeDeltas x rest) =
        toI64 (u64repr (x - prev)) := i64fromLe_i64le_append _ _
    have hwrap : toI64 (u64repr (prev + toI64 (u64repr (x - prev)))) = x :=
      wrap_idem prev x hx.1 hx.2
    have hdrop : (i64le (x - prev) ++ delta.encodeDeltas x rest).drop 8 =
        delta.encodeDeltas x rest := by
      simp [i64le, le64]
    simp only [List.length_cons, delta.encodeDeltas, delta.decodeLoop,
      if_pos hlen, hfrom, hwrap, hdrop, List.map_cons,
      ih x (fun y hy => hr y (List.mem_cons_of_mem _ hy))]

/-- Claim C7 (counterexample): under Plain encoding, the one-element
round-trip fails for `Int8`: the encoder writes a single byte but the
decoder only consumes eight-byte `i64`s, so decoding yields the empty
vector rather than `[Int64(1)]`. -/
theorem plain_int8_roundtrip_fails :
    plain.decode (plain.encode [Value.int8 1]) 1 ≠ .ok [Value.int64 1] ∧
    plain.decode (plain.encode [Value.int8 1]) 1 = .ok [] := by
  have h : plain.decode (plain.encode [Value.int8 1]) 1 = .ok [] := rfl
  exact ⟨by rw [h]; simp, h⟩

/-- Claim C7 (amended): for every integer value `v`, encoding `[v]` and
decoding with `count = 1` yields `[Int64(v as i64)]` under DeltaBinary;
under Plain encoding the same holds for `Int64` values, while for
`Int8`/`Int16`/`Int32` the Plain decode returns the empty vector (the
Plain decoder reads eight-byte `i64`s regardless of field type).
DeltaBinary encode followed by decode returns every monotone `i64`
sequence (as `Int64` values). -/
theorem codec_single_roundtrip_amended :
    (∀ v : Value, v.isIntegerType = true → v.intInRange →
      delta.decode (delta.encode [v]) 1 = .ok [Value.int64 (v.as_i64.getD 0)]) ∧
    (∀ x : Int, -2 ^ 63 ≤ x → x < 2 ^ 63 →
      plain.decode (plain.encode [Value.int64 x]) 1 = .ok [Value.int64 x]) ∧
    (∀ v : Value, v.isIntegerType = true → v ≠ Value.int64 (v.as_i64.getD 0) →
      plain.decode (plain.encode [v]) 1 = .ok []) ∧
    (∀ xs : List Int, List.Chain' (· ≤ ·) xs →
      (∀ x ∈ xs, -2 ^ 63 ≤ x ∧ x < 2 ^ 63) →
      delta.decode (delta.encode (xs.map Value.int64)) xs.length =
        .ok (xs.map Value.int64)) := by
  have hdec : ∀ xs : List Int, (∀ x ∈ xs, -2 ^ 63 ≤ x ∧ x < 2 ^ 63) →
      delta.decode (delta.encode (xs.map Value.int64)) xs.length =
        .ok (xs.map Value.int64) := by
    intro xs hr
    cases xs with
    | nil => rfl
    | cons x rest =>
      have hx := hr x (List.mem_cons_self _ _)
      have hmap : ∀ l : List Int,
          (l.map Value.int64).map (fun v => (v.as_i64).getD 0) = l := by
        intro l
        induction l with
        | nil => rfl
        | cons y ys ih => simp only [List.map_cons]; rw [ih]; rfl
      have henc : delta.encode ((x :: rest).map Value.int64) =
          i64le x ++ delta.encodeDeltas x rest := by
        unfold delta.encode
        rw [hmap (x :: rest)]
        rfl
      have hlen : ¬ (i64le x ++ delta.encodeDeltas x rest).length < 8 := by
        simp [i64le, le64]
      have hbase : i64fromLe (i64le x ++ delta.encodeDeltas x rest) = x := by
        rw [i64fromLe_i64le_append, toI64_u64repr x hx.1 hx.2]
      rw [henc]
      simp only [delta.decode, if_neg hlen, hbase]
      have hdrop : (i64le x ++ delta.encodeDeltas x rest).drop 8 =
          delta.encodeDeltas x rest := by simp [i64le, le64]
      simp only [hdrop, List.length_cons, Nat.add_sub_cancel,
        delta_decodeLoop_encodeDeltas rest x
          (fun y hy => hr y (List.mem_cons_of_mem _ hy)), List.map_cons]
  refine ⟨?_, ?_, ?_, fun xs _ hr => hdec xs hr⟩
  · intro v hint hrange
    obtain ⟨a, ha, h1, h2⟩ : ∃ a, v.as_i64 = some a ∧ -2 ^ 63 ≤ a ∧ a < 2 ^ 63 := by
      cases v with
      | int8 x => exact ⟨x, rfl, by obtain ⟨l, r⟩ := hrange; omega,
          by obtain ⟨l, r⟩ := hrange; omega⟩
      | int16 x => exact ⟨x, rfl, by obtain ⟨l, r⟩ := hrange; omega,
          by obtain ⟨l, r⟩ := hrange; omega⟩
      | int32 x => exact ⟨x, rfl, by obtain ⟨l, r⟩ := hrange; omega,
          by obtain ⟨l, r⟩ := hrange; omega⟩
      | int64 x => exact ⟨x, rfl, by obtain ⟨l, r⟩ := hrange; omega,
          by obtain ⟨l, r⟩ := hrange; omega⟩
      | _ => simp [Value.isIntegerType] at hint
    have henc : delta.encode [v] = i64le a := by
      simp [delta.encode, ha, delta.encodeInts, delta.encodeDeltas]
    have hlen : ¬ (i64le a).length < 8 := by simp [i64le, le64]
    simp only [henc, delta.decode, if_neg hlen,
      i64fromLe_i64le, toI64_u64repr a h1 h2, ha, Option.getD_some]
    rfl
  · intro x h1 h2
    have henc : plain.encode [Value.int64 x] = i64le x := by
      simp [plain.encode]
    have hlen : 8 ≤ (i64le x).length := by simp [i64le, le64]
    simp only [henc, plain.decode, plain.decodeLoop, if_pos hlen,
      i64fromLe_i64le, toI64_u64repr x h1 h2]
  · intro v hint hne
    cases v with
    | int8 x =>
      have h1 : (plain.encode [Value.int8 x]).length = 1 := by simp [plain.encode]
      simp [plain.decode, plain.decodeLoop, h1]
    | int16 x =>
      have h1 : (plain.encode [Value.int16 x]).length = 2 := by simp [plain.encode]
      simp [plain.decode, plain.decodeLoop, h1]
    | int32 x =>
      have h1 : (plain.encode [Value.int32 x]).length = 4 := by
        simp [plain.encode, le32]
      simp [plain.decode, plain.decodeLoop, h1]
    | int64 x => exact absurd rfl hne
    | _ => simp [Value.isIntegerType] at hint

/-- Claim C7 (witness): the amended round-trip theorem applied at
`Int8(3)`, `Int64(-9)` (Plain), `Int16(5)` (Plain empty decode) and the
monotone sequence `[2, 5, 5, 40]`. -/
theorem codec_single_roundtrip_amended_witness :
    delta.decode (delta.encode [Value.int8 3]) 1 = .ok [Value.int64 3] ∧
    plain.decode (plain.encode [Value.int64 (-9)]) 1 = .ok [Value.int64 (-9)] ∧
    plain.decode (plain.encode [Value.int16 5]) 1 = .ok [] ∧
    delta.decode (delta.encode ([2, 5, 5, 40].map Value.int64)) 4 =
      .ok ([2, 5, 5, 40].map Value.int64) :=
  ⟨codec_single_roundtrip_amended.1 (Value.int8 3) rfl (by constructor <;> decide),
   codec_single_roundtrip_amended.2.1 (-9) (by decide) (by decide),
   codec_single_roundtrip_amended.2.2.1 (Value.int16 5) rfl (by decide),
   codec_single_roundtrip_amended.2.2.2 [2, 5, 5, 40]
     (by norm_num [List.chain'_cons])
     (by intro x hx; fin_cases hx <;> constructor <;> decide)⟩

/-! ### Partition point / ordinal index lemmas (claim C10) -/

theorem partitionPointLoop_bounds (pred : Nat × Nat → Bool) (v : List (Nat × Nat)) :
    ∀ n l r, r - l ≤ n → l ≤ r →
      l ≤ partitionPointLoop pred v l r ∧ partitionPointLoop pred v l r ≤ r := by
  intro n
  induction n with
  | zero =>
    intro l r h1 h2
    have : l = r := by omega
    subst this
    rw [partitionPointLoop]
    simp
  | succ n ih =>
    intro l r h1 h2
    rw [partitionPointLoop]
    split_ifs with h hp
    · have hb := ih (l + (r - l) / 2 + 1) r (by omega) (by omega)
      exact ⟨by omega, hb.2⟩
    · have hb := ih l (l + (r - l) / 2) (by omega) (by omega)
      exact ⟨hb.1, by omega⟩
    · omega

theorem partitionPointLoop_eq (pred : Nat × Nat → Bool) (v : List (Nat × Nat))
    (k : Nat) (hk : ∀ i, i < k → pred (v.getD i (0, 0)) = true)
    (hk2 : ∀ i, k ≤ i → i < v.length → pred (v.getD i (0, 0)) = false) :
    ∀ n l r, r - l ≤ n → l ≤ k → k ≤ r → r ≤ v.length →
      partitionPointLoop pred v l r = k := by
  intro n
  induction n with
  | zero =>
    intro l r h1 h2 h3 h4
    rw [partitionPointLoop]
    have : ¬ l < r := by omega
    simp only [dif_neg this]
    omega
  | succ n ih =>
    intro l r h1 h2 h3 h4
    rw [partitionPointLoop]
    split_ifs with h hp
    · have hmid : l + (r - l) / 2 < k := by
        by_contra hc
        have := hk2 (l + (r - l) / 2) (by omega) (by omega)
        rw [this] at hp
        exact Bool.noConfusion hp
      exact ih (l + (r - l) / 2 + 1) r (by omega) (by omega) h3 h4
    · have hmid : k ≤ l + (r - l) / 2 := by
        by_contra hc
        exact hp (hk (l + (r - l) / 2) (by omega))
      exact ih l (l + (r - l) / 2) (by omega) h2 hmid (by omega)
    · omega

/-- Claim C10: for every non-empty `OrdinalIndex`,
`find_page_offset(row_id)` returns `Some` for every `row_id`; when
`row_id` is strictly smaller than the first entry's `first_row_id` (the
entries being sorted by `first_row_id`, the documented invariant of the
structure), the first entry's page offset is returned; and `None` is
returned only for an empty index. -/
theorem ordinal_find_page_offset_spec (entries : List (Nat × Nat)) (rowId : Nat)
    (hne : entries ≠ []) :
    (OrdinalIndex.find_page_offset ⟨entries⟩ rowId).isSome = true ∧
    (∀ rid0 off0 rest, entries = (rid0, off0) :: rest →
      List.Pairwise (fun a b => a.1 ≤ b.1) entries → rowId < rid0 →
      OrdinalIndex.find_page_offset ⟨entries⟩ rowId = some off0) ∧
    OrdinalIndex.find_page_offset ⟨[]⟩ rowId = Option.none := by
  refine ⟨?_, ?_, rfl⟩
  · unfold OrdinalIndex.find_page_offset
    rw [if_neg hne]
    dsimp only
    have hlen : 0 < entries.length := List.length_pos.mpr hne
    have hple : partitionPoint (fun e => decide (e.1 ≤ rowId)) entries ≤
        entries.length :=
      (partitionPointLoop_bounds (fun e => decide (e.1 ≤ rowId)) entries
        entries.length 0 entries.length (by omega) (by omega)).2
    generalize hpos : partitionPoint (fun e => decide (e.1 ≤ rowId)) entries = pos
    rw [hpos] at hple
    have hi : (if pos = 0 then 0 else pos - 1) < entries.length := by
      split_ifs <;> omega
    rcases ho : entries.get? (if pos = 0 then 0 else pos - 1) with _ | e
    · have := List.get?_eq_none.mp ho
      omega
    · rfl
  · intro rid0 off0 rest hent hsort hlt
    subst hent
    unfold OrdinalIndex.find_page_offset
    rw [if_neg hne]
    dsimp only
    have hk2 : ∀ i, i < ((rid0, off0) :: rest).length →
        (fun e => decide (e.1 ≤ rowId)) (((rid0, off0) :: rest).getD i (0, 0)) =
          false := by
      intro i hilen
      have hmem : ((rid0, off0) :: rest).getD i (0, 0) ∈ (rid0, off0) :: rest := by
        rw [List.getD_eq_getElem _ _ hilen]
        exact List.getElem_mem hilen
      have hge : rid0 ≤ (((rid0, off0) :: rest).getD i (0, 0)).1 := by
        rcases List.mem_cons.mp hmem with h | h
        · rw [h]
        · exact (List.pairwise_cons.mp hsort).1 _ h
      simp only [decide_eq_false_iff_not]
      omega
    have hpp : partitionPoint (fun e => decide (e.1 ≤ rowId))
        ((rid0, off0) :: rest) = 0 :=
      partitionPointLoop_eq _ _ 0 (by omega) (fun i _ h => hk2 i h)
        ((rid0, off0) :: rest).length 0 ((rid0, off0) :: rest).length
        (by omega) (by omega) (by omega) (by omega)
    rw [hpp]
    simp

/-- Claim C10 (witness): the specification applied to the sorted
two-entry index `[(5, 100), (7, 200)]` at `row_id = 3`. -/
theorem ordinal_find_page_offset_spec_witness :
    (OrdinalIndex.find_page_offset ⟨[(5, 100), (7, 200)]⟩ 3).isSome = true ∧
    OrdinalIndex.find_page_offset ⟨[(5, 100), (7, 200)]⟩ 3 = some 100 := by
  have h := ordinal_find_page_offset_spec [(5, 100), (7, 200)] 3 (by decide)
  exact ⟨h.1, h.2.1 5 100 [(7, 200)] rfl (by decide) (by decide)⟩


/-! ### Partition router (claim C9) -/

/-- Claim C9 (counterexample): with a Range policy whose first item has
partition id 10 and upper bound "b", but an empty `partitions` map, the
key "a" satisfies `key < upper_bound` yet `find_partition` does not
return the first item's partition — it fails, and with payload
`"pid=10"` rather than the key. -/
theorem find_partition_missing_partition_entry :
    PartitionInfo.find_partition
        ⟨[], .range [⟨10, Value.strBytes "b"⟩], []⟩ (Value.strBytes "a") =
      .error (.partitionNotFound (Value.strBytes "pid=" ++ Value.natDigits 10)) ∧
    lexLt (Value.strBytes "a") (Value.strBytes "b") = true := by
  constructor <;> rfl

/-- Claim C9 (amended): for a Range policy — items taken in ascending
order of upper bound — and any key, provided every item's partition id
has an entry in the partitions map, `find_partition` returns the
partition of the first item with `key < upper_bound`, and fails with
`PartitionNotFound(key)` exactly when the key is `≥` every item's upper
bound. -/
theorem find_partition_range_spec (cols : List (List Nat))
    (items : List RangePartitionItem) (parts : List (Nat × Partition))
    (key : List Nat)
    (hsorted : List.Pairwise
      (fun a b => lexLt a.upper_bound b.upper_bound = true) items)
    (hwf : ∀ it ∈ items, (lookupPid parts it.partition_id).isSome = true) :
    (∀ it, items.find? (fun it => lexLt key it.upper_bound) = some it →
      ∃ p, lookupPid parts it.partition_id = some p ∧
        PartitionInfo.find_partition ⟨cols, .range items, parts⟩ key = .ok p) ∧
    (PartitionInfo.find_partition ⟨cols, .range items, parts⟩ key =
        .error (.partitionNotFound key) ↔
      ∀ it ∈ items, lexLt key it.upper_bound = false) := by
  constructor
  · intro it hfind
    have hmem : it ∈ items := List.mem_of_find?_eq_some hfind
    have hsome := hwf it hmem
    rcases hp : lookupPid parts it.partition_id with _ | p
    · rw [hp] at hsome; exact Bool.noConfusion hsome
    · refine ⟨p, rfl, ?_⟩
      unfold PartitionInfo.find_partition PartitionInfo.resolvePid
      simp only [hfind, hp]
  · constructor
    · intro herr
      rcases hfind : items.find? (fun it => lexLt key it.upper_bound) with _ | it
      · intro it hmem
        have := List.find?_eq_none.mp hfind it hmem
        simpa using this
      · exfalso
        have hmem : it ∈ items := List.mem_of_find?_eq_some hfind
        have hsome := hwf it hmem
        rcases hp : lookupPid parts it.partition_id with _ | p
        · rw [hp] at hsome; exact Bool.noConfusion hsome
        · unfold PartitionInfo.find_partition PartitionInfo.resolvePid at herr
          simp only [hfind, hp] at herr
          exact Except.noConfusion herr
    · intro hall
      have hfind : items.find? (fun it => lexLt key it.upper_bound) = Option.none :=
        List.find?_eq_none.mpr (fun it hmem => by simp [hall it hmem])
      unfold PartitionInfo.find_partition PartitionInfo.resolvePid
      simp only [hfind]

/-- Claim C9 (witness): the amended router specification at the spec's
concrete instance — upper bounds "2024-07-01"/"2025-01-01" with
partition ids 10/11; "2024-03-15" routes to partition 10, "2024-09-20"
to partition 11, and "2025-06-01" fails with the key as payload. -/
theorem find_partition_range_spec_witness :
    (∃ p, lookupPid
        [(10, ⟨10, ⟨1, [100]⟩, [], .random 4, 0⟩),
         (11, ⟨11, ⟨2, [200]⟩, [], .random 4, 0⟩)] 10 = some p ∧
      PartitionInfo.find_partition
        ⟨[], .range [⟨10, Value.strBytes "2024-07-01"⟩,
                     ⟨11, Value.strBytes "2025-01-01"⟩],
          [(10, ⟨10, ⟨1, [100]⟩, [], .random 4, 0⟩),
           (11, ⟨11, ⟨2, [200]⟩, [], .random 4, 0⟩)]⟩
        (Value.strBytes "2024-03-15") = .ok p) ∧
    (∃ p, lookupPid
        [(10, ⟨10, ⟨1, [100]⟩, [], .random 4, 0⟩),
         (11, ⟨11, ⟨2, [200]⟩, [], .random 4, 0⟩)] 11 = some p ∧
      PartitionInfo.find_partition
        ⟨[], .range [⟨10, Value.strBytes "2024-07-01"⟩,
                     ⟨11, Value.strBytes "2025-01-01"⟩],
          [(10, ⟨10, ⟨1, [100]⟩, [], .random 4, 0⟩),
           (11, ⟨11, ⟨2, [200]⟩, [], .random 4, 0⟩)]⟩
        (Value.strBytes "2024-09-20") = .ok p) ∧
    PartitionInfo.find_partition
        ⟨[], .range [⟨10, Value.strBytes "2024-07-01"⟩,
                     ⟨11, Value.strBytes "2025-01-01"⟩],
          [(10, ⟨10, ⟨1, [100]⟩, [], .random 4, 0⟩),
           (11, ⟨11, ⟨2, [200]⟩, [], .random 4, 0⟩)]⟩
        (Value.strBytes "2025-06-01") =
      .error (.partitionNotFound (Value.strBytes "2025-06-01")) := by
  refine ⟨?_, ?_, ?_⟩
  · exact (find_partition_range_spec [] _ _ _ (by decide) (by decide)).1
      ⟨10, Value.strBytes "2024-07-01"⟩ (by rfl)
  · exact (find_partition_range_spec [] _ _ _ (by decide) (by decide)).1
      ⟨11, Value.strBytes "2025-01-01"⟩ (by rfl)
  · exact (find_partition_range_spec [] _ _ _ (by decide) (by decide)).2.mpr
      (by decide)

/-! ### Rowset metadata (claim C6) -/

/-- Claim C6 (counterexample): `RowsetMeta::new` computes
`num_segments = num_rows/10^6 + 1`, not the ceiling: for `num_rows = 0`
it yields 1 (the claim says 0), and for `num_rows = 10^6` it yields 2
(the claim says 1). -/
theorem rowset_num_segments_not_ceiling :
    (RowsetMeta.new 1 2 3 ⟨0, 1⟩ 0 0).num_segments = 1 ∧
    (RowsetMeta.new 1 2 3 ⟨0, 1⟩ 1000000 0).num_segments = 2 := by
  constructor <;> rfl

/-- Claim C6 (amended): for every `num_rows` small enough that the
`as u32` cast does not truncate, `RowsetMeta::new` produces
`num_segments = num_rows / 10^6 + 1` (so 1 for `num_rows = 0` and 2 for
`num_rows = 10^6`), and `segment_paths` has exactly `num_segments`
entries. -/
theorem rowset_num_segments_spec (rowsetId tabletId partitionId : Nat)
    (version : Version) (numRows dataDiskSize : Nat)
    (h : numRows / 1000000 + 1 < 2 ^ 32) :
    (RowsetMeta.new rowsetId tabletId partitionId version numRows
        dataDiskSize).num_segments = numRows / 1000000 + 1 ∧
    (RowsetMeta.new rowsetId tabletId partitionId version numRows
        dataDiskSize).segment_paths.length =
      (RowsetMeta.new rowsetId tabletId partitionId version numRows
        dataDiskSize).num_segments := by
  constructor
  · show (numRows / 1000000 + 1) % 2 ^ 32 = numRows / 1000000 + 1
    exact Nat.mod_eq_of_lt h
  · simp [RowsetMeta.new]

/-- Claim C6 (witness): the amended statement at `num_rows = 2_500_000`:
three segments and three paths. -/
theorem rowset_num_segments_spec_witness :
    (RowsetMeta.new 7 1 2 ⟨0, 1⟩ 2500000 999).num_segments = 2500000 / 1000000 + 1 ∧
    (RowsetMeta.new 7 1 2 ⟨0, 1⟩ 2500000 999).segment_paths.length =
      (RowsetMeta.new 7 1 2 ⟨0, 1⟩ 2500000 999).num_segments :=
  rowset_num_segments_spec 7 1 2 ⟨0, 1⟩ 2500000 999 (by norm_num)

/-! ### Segment open (claim C5) -/

/-- Claim C5: the code violates the no-panic policy.  A 20-byte input
ending in MAGIC whose `footer_len` field is `0xFFFFFFFF` drives
`SegmentReader::open` into the `n - 16 - footer_len` usize underflow
(a Rust panic: subtraction overflow in debug, out-of-range slice in
release), instead of returning an error value. -/
theorem segment_open_panics_on_oversized_footer_len :
    SegmentReader.open
        ([0, 0, 0, 0] ++ [255, 255, 255, 255] ++ [255, 255, 255, 255] ++ MAGIC)
        [] = .panic ∧
    ([0, 0, 0, 0] ++ [255, 255, 255, 255] ++ [255, 255, 255, 255] ++
        MAGIC).drop 12 = MAGIC := by
  constructor <;> rfl


/-! ### Tablet max-version invariant (claim C4) -/

theorem maxStopFold_state_irrelevant (l : List (Nat × RowsetMeta)) (id2 : Nat) :
    ∀ a : Int,
      ((l.map (fun q => if q.1 == id2
          then (q.1, { q.2 with state := RowsetState.stale }) else q)).map
        Prod.snd).foldl (fun m r => max m r.version.stop) a =
      (l.map Prod.snd).foldl (fun m r => max m r.version.stop) a := by
  induction l with
  | nil => intro a; rfl
  | cons q l ih =>
    intro a
    by_cases hq : q.1 == id2
    · simp only [List.map_cons, hq, if_pos, List.foldl_cons]
      exact ih _
    · simp only [List.map_cons, hq, if_neg, List.foldl_cons, Bool.false_eq_true,
        not_false_iff]
      exact ih _

theorem applyOp_preserves_allMax (t : TabletInner) (op : TabletOp)
    (h : t.meta.max_version = allMaxVersion t) :
    (t.applyOp op).meta.max_version = allMaxVersion (t.applyOp op) := by
  cases op with
  | add rs =>
    unfold TabletInner.applyOp TabletInner.add_rowset
    by_cases hc : t.meta.rowsets.any (fun p => p.1 == rs.rowset_id)
    · simp only [hc, if_pos]
      exact h
    · simp only [hc, Bool.false_eq_true, not_false_iff, if_neg]
      show (if rs.version.stop > t.meta.max_version
          then rs.version.stop else t.meta.max_version) = allMaxVersion _
      unfold allMaxVersion maxStopFold
      simp only [List.map_append, List.map_cons, List.map_nil,
        List.foldl_append, List.foldl_cons, List.foldl_nil]
      rw [h]
      unfold allMaxVersion maxStopFold
      split_ifs <;> omega
  | stale id2 =>
    unfold TabletInner.applyOp TabletInner.mark_rowset_stale
    cases hfind : t.meta.rowsets.find? (fun p => p.1 == id2) with
    | none =>
      simp only [hfind]
      exact h
    | some p =>
      simp only [hfind]
      unfold allMaxVersion maxStopFold at h ⊢
      rw [maxStopFold_state_irrelevant]
      exact h

/-- Claim C4 (counterexample): publishing rowset 1 with version `[0,5]`
and then marking it stale leaves `max_version = 5` while no rowset is
Visible, so the claimed invariant `max_version = max over Visible
rowsets (-1 when none)` does not hold after `mark_rowset_stale` on the
rowset with the greatest visible end version. -/
theorem tablet_max_version_visible_invariant_fails :
    ([TabletOp.add (RowsetMeta.new 1 1 1 ⟨0, 5⟩ 10 10), TabletOp.stale 1].foldl
        TabletInner.applyOp
        (TabletInner.new (TabletMeta.new 1 1 0))).meta.max_version = 5 ∧
    visibleMaxVersion
      ([TabletOp.add (RowsetMeta.new 1 1 1 ⟨0, 5⟩ 10 10), TabletOp.stale 1].foldl
        TabletInner.applyOp
        (TabletInner.new (TabletMeta.new 1 1 0))) = -1 := by
  constructor <;> rfl

/-- Claim C4 (amended): for every tablet state reachable by any sequence
of `add_rowset` and `mark_rowset_stale` operations from a fresh tablet,
`max_version` equals the maximum of `-1` and `version.end` over ALL
rowsets in the map regardless of state (`mark_rowset_stale` keeps the
rowset in the map and never lowers `max_version`). -/
theorem tablet_max_version_all_rowsets (tid pid sh : Nat)
    (ops : List TabletOp) :
    (ops.foldl TabletInner.applyOp
        (TabletInner.new (TabletMeta.new tid pid sh))).meta.max_version =
      allMaxVersion (ops.foldl TabletInner.applyOp
        (TabletInner.new (TabletMeta.new tid pid sh))) := by
  have H : ∀ (l : List TabletOp) (t : TabletInner),
      t.meta.max_version = allMaxVersion t →
      (l.foldl TabletInner.applyOp t).meta.max_version =
        allMaxVersion (l.foldl TabletInner.applyOp t) := by
    intro l
    induction l with
    | nil => exact fun t h => h
    | cons op l ih =>
      intro t h
      exact ih (t.applyOp op) (applyOp_preserves_allMax t op h)
  exact H ops _ rfl


/-! ### Version-graph BFS soundness (claim C3) -/

theorem chainFrom_append (lo m e : Int) (p : List Version)
    (h : ChainFrom lo m p) : ChainFrom lo e (p ++ [⟨m + 1, e⟩]) := by
  induction p generalizing lo with
  | nil => exact absurd h (by simp [ChainFrom])
  | cons v rest ih =>
    cases rest with
    | nil =>
      obtain ⟨h1, h2⟩ := h
      subst h2
      exact ⟨h1, rfl, rfl⟩
    | cons w rest2 =>
      obtain ⟨h1, h2⟩ := h
      exact ⟨h1, ih _ h2⟩

theorem chainFrom_covers (hi : Int) (p : List Version) :
    ∀ lo x : Int, ChainFrom lo hi p → lo ≤ x → x ≤ hi →
      ∃ v ∈ p, v.start ≤ x ∧ x ≤ v.stop := by
  induction p with
  | nil => intro lo x h; exact absurd h (by simp [ChainFrom])
  | cons v rest ih =>
    intro lo x h hx1 hx2
    cases rest with
    | nil =>
      obtain ⟨h1, h2⟩ := h
      exact ⟨v, List.mem_cons_self _ _, by omega, by omega⟩
    | cons w rest2 =>
      obtain ⟨h1, h2⟩ := h
      by_cases hc : x ≤ v.stop
      · exact ⟨v, List.mem_cons_self _ _, by omega, hc⟩
      · obtain ⟨u, hu, hcov⟩ := ih (v.stop + 1) x h2 (by omega) hx2
        exact ⟨u, List.mem_cons_of_mem _ hu, hcov⟩

theorem mem_insertDesc (x a : Int) (l : List Int) :
    a ∈ VersionGraph.insertDesc x l ↔ a = x ∨ a ∈ l := by
  induction l with
  | nil => simp [VersionGraph.insertDesc]
  | cons y ys ih =>
    unfold VersionGraph.insertDesc
    split_ifs with h
    · simp
    · simp [ih]
      tauto

theorem mem_sortDesc (a : Int) (l : List Int) :
    a ∈ VersionGraph.sortDesc l ↔ a ∈ l := by
  induction l with
  | nil => simp [VersionGraph.sortDesc]
  | cons x xs ih =>
    unfold VersionGraph.sortDesc
    rw [mem_insertDesc, ih]
    simp

theorem endsFor_mem (g : VersionGraph) (cur e : Int)
    (h : e ∈ g.endsFor cur) : (⟨cur, e⟩ : Version) ∈ g.edges := by
  unfold VersionGraph.endsFor at h
  rw [mem_sortDesc, List.mem_dedup, List.mem_map] at h
  obtain ⟨v, hv, hstop⟩ := h
  rw [List.mem_filter] at hv
  have hstart : v.start = cur := by simpa using hv.2
  have : v = (⟨cur, e⟩ : Version) := by
    cases v
    simp_all
  rw [← this]
  exact hv.1

theorem scanEnds_sound (g : VersionGraph) (lo hi cur : Int) (path : List Version)
    (hq : QEntry g lo (cur, path)) :
    ∀ (ends : List Int) (visited : List Int) (acc : List (Int × List Version)),
      (∀ e ∈ ends, (⟨cur, e⟩ : Version) ∈ g.edges) →
      (∀ q ∈ acc, QEntry g lo q) →
      (∀ p, (VersionGraph.scanEnds hi cur path visited acc ends).1 = some p →
        ChainFrom lo hi p ∧ ∀ v ∈ p, v ∈ g.edges) ∧
      (∀ q ∈ (VersionGraph.scanEnds hi cur path visited acc ends).2.2,
        QEntry g lo q) := by
  intro ends
  induction ends with
  | nil =>
    intro visited acc hends hacc
    exact ⟨fun p hp => Option.noConfusion hp, hacc⟩
  | cons e rest ih =>
    intro visited acc hends hacc
    have hmem : (⟨cur, e⟩ : Version) ∈ g.edges :=
      hends e (List.mem_cons_self _ _)
    have hrest : ∀ x ∈ rest, (⟨cur, x⟩ : Version) ∈ g.edges :=
      fun x hx => hends x (List.mem_cons_of_mem _ hx)
    have hchain : ChainFrom lo e (path ++ [⟨cur, e⟩]) ∧
        ∀ v ∈ path ++ [⟨cur, e⟩], v ∈ g.edges := by
      constructor
      · rcases hq with ⟨hnil, hlo⟩ | ⟨hch, _⟩
        · have hnil2 : path = [] := hnil
          have hlo2 : cur = lo := hlo
          subst hnil2
          subst hlo2
          exact ⟨rfl, rfl⟩
        · have h2 := chainFrom_append lo (cur - 1) e path hch
          have h3 : cur - 1 + 1 = cur := by omega
          rw [h3] at h2
          exact h2
      · intro v hv
        rcases List.mem_append.mp hv with h | h
        · rcases hq with ⟨hnil, _⟩ | ⟨_, hmem2⟩
          · have hnil2 : path = [] := hnil
            rw [hnil2] at h
            exact absurd h (List.not_mem_nil v)
          · exact hmem2 v h
        · rw [List.mem_singleton.mp h]
          exact hmem
    unfold VersionGraph.scanEnds
    by_cases hhi : e == hi
    · simp only [hhi, if_pos]
      refine ⟨fun p hp => ?_, hacc⟩
      have hpe : p = path ++ [⟨cur, e⟩] := (Option.some.injEq _ _).mp hp.symm
      subst hpe
      have he : e = hi := by simpa using hhi
      rw [← he]
      exact hchain
    · simp only [hhi, Bool.false_eq_true, if_neg, not_false_iff]
      by_cases hlt : e < hi ∧ (e + 1) ∉ visited
      · simp only [hlt, if_pos]
        refine ih _ _ hrest ?_
        intro q hq2
        rcases List.mem_append.mp hq2 with h | h
        · exact hacc q h
        · rw [List.mem_singleton.mp h]
          right
          constructor
          · have : e + 1 - 1 = e := by omega
            rw [this]
            exact hchain.1
          · exact hchain.2
      · simp only [hlt, if_neg, not_false_iff]
        exact ih _ _ hrest hacc

theorem bfsLoop_sound (g : VersionGraph) (lo hi : Int) :
    ∀ (fuel : Nat) (queue : List (Int × List Version)) (visited : List Int)
      (p : List Version),
      (∀ q ∈ queue, QEntry g lo q) →
      g.bfsLoop hi fuel queue visited = some p →
      ChainFrom lo hi p ∧ ∀ v ∈ p, v ∈ g.edges := by
  intro fuel
  induction fuel with
  | zero => intro queue visited p _ h; exact Option.noConfusion h
  | succ fuel ih =>
    intro queue visited p hqueue hrun
    cases queue with
    | nil => exact Option.noConfusion hrun
    | cons q qs =>
      obtain ⟨cur, path⟩ := q
      have hq : QEntry g lo (cur, path) := hqueue _ (List.mem_cons_self _ _)
      have hs := scanEnds_sound g lo hi cur path hq (g.endsFor cur) visited []
        (fun e he => endsFor_mem g cur e he) (by intro q hq2; cases hq2)
      unfold VersionGraph.bfsLoop at hrun
      rcases hscan : VersionGraph.scanEnds hi cur path visited []
          (g.endsFor cur) with ⟨res, vis2, items⟩
      rw [hscan] at hrun
      cases res with
      | some p2 =>
        have hp2 : p2 = p := by
          simpa using hrun
        subst hp2
        exact hs.1 p2 (by rw [hscan])
      | none =>
        refine ih (qs ++ items) vis2 p ?_ hrun
        intro q hq2
        rcases List.mem_append.mp hq2 with h | h
        · exact hqueue q (List.mem_cons_of_mem _ h)
        · have := hs.2 q
          rw [hscan] at this
          exact this h

theorem find_covering_path_sound (g : VersionGraph) (lo hi : Int)
    (p : List Version) (h : g.find_covering_path lo hi = some p) :
    ChainFrom lo hi p ∧ ∀ v ∈ p, v ∈ g.edges := by
  unfold VersionGraph.find_covering_path at h
  refine bfsLoop_sound g lo hi (g.edges.length + 1) [(lo, [])] [lo] p ?_ h
  intro q hq
  rw [List.mem_singleton.mp hq]
  exact Or.inl ⟨rfl, rfl⟩

/-- Claim C3: if some version `x` in `[lo,hi]` is covered by no edge of
the tablet's version graph, then `has_version_holes(lo,hi)` is true and
`capture_consistent_versions(lo,hi)` fails with `MissingVersions` — any
covering path would consist of graph edges forming a consecutive chain
from `lo` to `hi`, which covers every version of the interval. -/
theorem version_holes_on_uncovered (t : TabletInner) (lo hi x : Int)
    (hx1 : lo ≤ x) (hx2 : x ≤ hi)
    (huncov : ∀ v ∈ t.version_graph.edges, ¬ (v.start ≤ x ∧ x ≤ v.stop)) :
    t.version_graph.has_version_holes lo hi = true ∧
    t.capture_consistent_versions lo hi =
      .error (.missingVersions (fmtRange lo hi)) := by
  have hnone : t.version_graph.find_covering_path lo hi = Option.none := by
    rcases hfind : t.version_graph.find_covering_path lo hi with _ | p
    · rfl
    · exfalso
      obtain ⟨hchain, hmem⟩ := find_covering_path_sound _ _ _ _ hfind
      obtain ⟨v, hv, hcov⟩ := chainFrom_covers hi p lo x hchain hx1 hx2
      exact huncov v (hmem v hv) hcov
  constructor
  · unfold VersionGraph.has_version_holes
    rw [hnone]
    rfl
  · unfold TabletInner.capture_consistent_versions
    rw [hnone]

/-- Claim C3 (witness): a tablet holding only version `[0,1]` has a hole
at `2 ∈ [0,3]`: `has_version_holes(0,3)` and the capture error. -/
theorem version_holes_on_uncovered_witness :
    (TabletInner.new
        ⟨1, 1, 0, [(1, RowsetMeta.new 1 1 1 ⟨0, 1⟩ 10 10)], -1,
          1⟩).version_graph.has_version_holes 0 3 = true ∧
    (TabletInner.new
        ⟨1, 1, 0, [(1, RowsetMeta.new 1 1 1 ⟨0, 1⟩ 10 10)], -1,
          1⟩).capture_consistent_versions 0 3 =
      .error (.missingVersions (fmtRange 0 3)) :=
  version_holes_on_uncovered _ 0 3 2 (by norm_num) (by norm_num) (by decide)


/-! ### Chain partitions and BFS success (claim C2) -/

theorem sortedChain_ne_nil {hi s : Int} {ws : List Version}
    (h : SortedChain hi s ws) : ws ≠ [] := by
  cases h <;> simp

theorem sortedChain_head_start {hi s : Int} {v : Version} {rest : List Version}
    (h : SortedChain hi s (v :: rest)) : v.start = s := by
  cases h <;> rfl

theorem sortedChain_start_le {hi s : Int} {ws : List Version}
    (h : SortedChain hi s ws) : ∀ v ∈ ws, s ≤ v.start := by
  induction h with
  | last s hs =>
    intro v hv
    rw [List.mem_singleton.mp hv]
  | cons s e rest hse hehi hrest ih =>
    intro v hv
    rcases List.mem_cons.mp hv with h | h
    · rw [h]
    · have := ih v h
      omega

theorem sortedChain_pairwise_start {hi s : Int} {ws : List Version}
    (h : SortedChain hi s ws) :
    List.Pairwise (fun a b => a.start < b.start) ws := by
  induction h with
  | last s hs => simp
  | cons s e rest hse hehi hrest ih =>
    refine List.pairwise_cons.mpr ⟨?_, ih⟩
    intro v hv
    have := sortedChain_start_le hrest v hv
    show s < v.start
    omega

theorem sortedChain_nodup {hi s : Int} {ws : List Version}
    (h : SortedChain hi s ws) : ws.Nodup := by
  refine (sortedChain_pairwise_start h).imp ?_
  intro a b hab
  intro he
  rw [he] at hab
  omega

theorem sortedChain_run {hi s : Int} {ws : List Version}
    (h : SortedChain hi s ws) : isConsecutiveRun s hi ws = true := by
  induction h with
  | last s hs =>
    simp [isConsecutiveRun, hs]
  | cons s e rest hse hehi hrest ih =>
    have hne := sortedChain_ne_nil hrest
    cases rest with
    | nil => exact absurd rfl hne
    | cons w rest2 =>
      simp [isConsecutiveRun, hse, ih]

theorem eq_singleton_of_nodup {α : Type} (l : List α) (a : α) (hnd : l.Nodup)
    (hall : ∀ x ∈ l, x = a) (hmem : a ∈ l) : l = [a] := by
  cases l with
  | nil => exact absurd hmem (List.not_mem_nil a)
  | cons x rest =>
    have hx : x = a := hall x (List.mem_cons_self _ _)
    subst hx
    cases rest with
    | nil => rfl
    | cons y rest2 =>
      have hy : y = x := hall y (List.mem_cons_of_mem _ (List.mem_cons_self _ _))
      exfalso
      have := (List.nodup_cons.mp hnd).1
      rw [hy] at this
      exact this (List.mem_cons_self _ _)

theorem endsFor_eq_single (g : VersionGraph) (ws : List Version)
    (hperm : g.edges.Perm ws) (hnd : ws.Nodup)
    (hstarts : List.Pairwise (fun a b => a.start ≠ b.start) ws)
    (v : Version) (hv : v ∈ ws) : g.endsFor v.start = [v.stop] := by
  have hedup : g.edges.Nodup := (hperm.nodup_iff).mpr hnd
  have hmemiff : ∀ x : Version, x ∈ g.edges ↔ x ∈ ws := fun x => hperm.mem_iff
  have hfil : g.edges.filter (fun w => w.start == v.start) = [v] := by
    refine eq_singleton_of_nodup _ v (List.Nodup.filter _ hedup) ?_ ?_
    · intro x hx
      rw [List.mem_filter] at hx
      have hxw : x ∈ ws := (hmemiff x).mp hx.1
      have hxs : x.start = v.start := by simpa using hx.2
      by_contra hne
      exact List.Pairwise.forall (fun a b h => Ne.symm h) hstarts hxw hv hne hxs
    · rw [List.mem_filter]
      exact ⟨(hmemiff v).mpr hv, by simp⟩
  unfold VersionGraph.endsFor
  rw [hfil]
  simp [VersionGraph.sortDesc, VersionGraph.insertDesc]


/-- Pairwise non-overlapping well-formed intervals whose union is
exactly `[lo,hi]` can be arranged into a sorted consecutive chain. -/
theorem chain_of_partition :
    ∀ (n : Nat) (vs : List Version) (lo hi : Int), (hi - lo).toNat ≤ n →
      lo ≤ hi →
      (∀ v ∈ vs, v.start ≤ v.stop) →
      List.Pairwise (fun a b => a.stop < b.start ∨ b.stop < a.start) vs →
      (∀ x : Int, (lo ≤ x ∧ x ≤ hi) ↔ ∃ v ∈ vs, v.start ≤ x ∧ x ≤ v.stop) →
      ∃ ws, vs.Perm ws ∧ SortedChain hi lo ws := by
  intro n
  induction n with
  | zero =>
    intro vs lo hi hn hle hwf hdisj hcov
    -- hi = lo; handled by the same argument as the successor case's
    -- "v reaches hi" branch, inlined.
    obtain ⟨v, hv, hcv⟩ := (hcov lo).mp ⟨le_refl lo, hle⟩
    have hstart : v.start = lo := by
      have h2 : lo ≤ v.start :=
        ((hcov v.start).mpr ⟨v, hv, le_refl _, hwf v hv⟩).1
      omega
    have hstop : v.stop = hi := by
      have h2 : v.stop ≤ hi :=
        ((hcov v.stop).mpr ⟨v, hv, hwf v hv, le_refl _⟩).2
      omega
    have hperm : vs.Perm (v :: vs.erase v) := List.perm_cons_erase hv
    have hpair2 := (List.Perm.pairwise_iff
      (fun {a b : Version} h => Or.symm h) hperm).mp hdisj
    have hheadR := (List.pairwise_cons.mp hpair2).1
    have herase : vs.erase v = [] := by
      cases he : vs.erase v with
      | nil => rfl
      | cons w rest =>
        exfalso
        have hw : w ∈ vs.erase v := by rw [he]; exact List.mem_cons_self _ _
        have hwvs : w ∈ vs := List.mem_of_mem_erase hw
        have hwin : lo ≤ w.start ∧ w.start ≤ hi :=
          (hcov w.start).mpr ⟨w, hwvs, le_refl _, hwf w hwvs⟩
        rcases hheadR w hw with h | h
        · omega
        · have := hwf w hwvs
          omega
    rw [herase] at hperm
    refine ⟨[v], hperm, ?_⟩
    have hv2 : v = ⟨lo, hi⟩ := by
      cases v
      simp_all
    rw [hv2]
    exact SortedChain.last lo hle
  | succ n ih =>
    intro vs lo hi hn hle hwf hdisj hcov
    obtain ⟨v, hv, hcv⟩ := (hcov lo).mp ⟨le_refl lo, hle⟩
    have hstart : v.start = lo := by
      have h2 : lo ≤ v.start :=
        ((hcov v.start).mpr ⟨v, hv, le_refl _, hwf v hv⟩).1
      omega
    have hstople : v.stop ≤ hi :=
      ((hcov v.stop).mpr ⟨v, hv, hwf v hv, le_refl _⟩).2
    have hperm : vs.Perm (v :: vs.erase v) := List.perm_cons_erase hv
    have hpair2 := (List.Perm.pairwise_iff
      (fun {a b : Version} h => Or.symm h) hperm).mp hdisj
    have hheadR := (List.pairwise_cons.mp hpair2).1
    by_cases hcase : v.stop = hi
    · have herase : vs.erase v = [] := by
        cases he : vs.erase v with
        | nil => rfl
        | cons w rest =>
          exfalso
          have hw : w ∈ vs.erase v := by rw [he]; exact List.mem_cons_self _ _
          have hwvs : w ∈ vs := List.mem_of_mem_erase hw
          have hwin : lo ≤ w.start ∧ w.start ≤ hi :=
            (hcov w.start).mpr ⟨w, hwvs, le_refl _, hwf w hwvs⟩
          rcases hheadR w hw with h | h
          · omega
          · have := hwf w hwvs
            omega
      rw [herase] at hperm
      refine ⟨[v], hperm, ?_⟩
      have hv2 : v = ⟨lo, hi⟩ := by
        cases v
        simp_all
      rw [hv2]
      exact SortedChain.last lo hle
    · have hstoplt : v.stop < hi := by omega
      have hwfv : v.start ≤ v.stop := hwf v hv
      have hcov2 : ∀ x : Int, (v.stop + 1 ≤ x ∧ x ≤ hi) ↔
          ∃ w ∈ vs.erase v, w.start ≤ x ∧ x ≤ w.stop := by
        intro x
        constructor
        · intro hx
          obtain ⟨w, hw, hcw⟩ := (hcov x).mp ⟨by omega, hx.2⟩
          have hwne : w ≠ v := by
            intro he
            rw [he] at hcw
            omega
          exact ⟨w, (List.mem_erase_of_ne hwne).mpr hw, hcw⟩
        · rintro ⟨w, hw, hcw⟩
          have hwvs : w ∈ vs := List.mem_of_mem_erase hw
          have hxin : lo ≤ x ∧ x ≤ hi := (hcov x).mpr ⟨w, hwvs, hcw⟩
          refine ⟨?_, hxin.2⟩
          by_contra hc
          rcases hheadR w hw with h | h
          · omega
          · omega
      obtain ⟨ws2, hperm2, hchain2⟩ := ih (vs.erase v) (v.stop + 1) hi
        (by omega) (by omega)
        (fun w hw => hwf w (List.mem_of_mem_erase hw))
        (List.pairwise_cons.mp hpair2).2 hcov2
      refine ⟨v :: ws2, hperm.trans (hperm2.cons v), ?_⟩
      have hv2 : v = ⟨lo, v.stop⟩ := by
        cases v
        simp_all
      rw [hv2]
      exact SortedChain.cons lo v.stop ws2 (by omega) hstoplt hchain2


/-- On a graph whose adjacency realises a sorted chain, the BFS walks
the chain and returns it appended to the accumulated path. -/
theorem bfsLoop_on_chain (g : VersionGraph) (hi : Int) :
    ∀ (s : Int) (ws : List Version), SortedChain hi s ws →
      (∀ v ∈ ws, g.endsFor v.start = [v.stop]) →
      ∀ (fuel : Nat) (path : List Version) (visited : List Int),
        ws.length ≤ fuel → (∀ v ∈ ws.tail, v.start ∉ visited) →
        g.bfsLoop hi fuel [(s, path)] visited = some (path ++ ws) := by
  intro s ws hchain
  induction hchain with
  | last s hs =>
    intro hchar fuel path visited hfuel hvis
    obtain ⟨f, rfl⟩ : ∃ f, fuel = f + 1 := ⟨fuel - 1, by simp at hfuel; omega⟩
    have hends : g.endsFor s = [hi] := by
      have := hchar ⟨s, hi⟩ (List.mem_singleton_self _)
      simpa using this
    unfold VersionGraph.bfsLoop
    rw [hends]
    simp [VersionGraph.scanEnds]
  | cons s e rest hse hehi hrest ih =>
    intro hchar fuel path visited hfuel hvis
    obtain ⟨f, rfl⟩ : ∃ f, fuel = f + 1 := ⟨fuel - 1, by simp at hfuel; omega⟩
    have hne := sortedChain_ne_nil hrest
    obtain ⟨w, rest2, rfl⟩ : ∃ w rest2, rest = w :: rest2 := by
      cases rest with
      | nil => exact absurd rfl hne
      | cons w rest2 => exact ⟨w, rest2, rfl⟩
    have hwstart : w.start = e + 1 := sortedChain_head_start hrest
    have hends : g.endsFor s = [e] := by
      have := hchar ⟨s, e⟩ (List.mem_cons_self _ _)
      simpa using this
    have hnotvis : (e + 1) ∉ visited := by
      have := hvis w (List.mem_cons_self _ _)
      rw [hwstart] at this
      exact this
    unfold VersionGraph.bfsLoop
    rw [hends]
    have hscan : VersionGraph.scanEnds hi s path visited [] [e] =
        (Option.none, visited ++ [e + 1], [(e + 1, path ++ [⟨s, e⟩])]) := by
      unfold VersionGraph.scanEnds
      rw [if_neg (by simp; omega), if_pos ⟨hehi, hnotvis⟩]
      rfl
    rw [hscan]
    have hvis2 : ∀ v ∈ (w :: rest2).tail, v.start ∉ visited ++ [e + 1] := by
      intro v hv
      have hv1 : v ∈ (w :: rest2) := List.mem_cons_of_mem _ hv
      have hnv : v.start ∉ visited := hvis v (List.mem_cons_of_mem _ hv)
      rw [List.mem_append]
      rintro (h | h)
      · exact hnv h
      · have hveq : v.start = e + 1 := List.mem_singleton.mp h
        cases hrest with
        | last _ _ =>
          exact absurd hv (List.not_mem_nil v)
        | cons _ e2 _ h1 h2 h3 =>
          have := sortedChain_start_le h3 v hv
          omega
    have := ih (fun v hv => hchar v (List.mem_cons_of_mem _ hv)) f
      (path ++ [⟨s, e⟩]) (visited ++ [e + 1])
      (by simp at hfuel ⊢; omega) hvis2
    dsimp only
    rw [List.nil_append, this]
    simp


/-- Successful publishes append the rowsets (marked Visible) to the map
and their versions to the edge list. -/
theorem publishAll_state (rsl : List RowsetMeta) :
    ∀ (t t2 : TabletInner), publishAll t rsl = .ok t2 →
      (t.version_graph.edges ++ rsl.map RowsetMeta.version).Nodup →
      t2.meta.rowsets = t.meta.rowsets ++
        rsl.map (fun rs => (rs.rowset_id,
          { rs with state := RowsetState.visible })) ∧
      t2.version_graph.edges =
        t.version_graph.edges ++ rsl.map RowsetMeta.version := by
  induction rsl with
  | nil =>
    intro t t2 h hnd
    have ht : t = t2 := by
      unfold publishAll at h
      exact (Except.ok.injEq _ _).mp h
    subst ht
    simp
  | cons rs rest ih =>
    intro t t2 h hnd
    unfold publishAll at h
    cases hadd : t.add_rowset rs with
    | error e => rw [hadd] at h; exact Except.noConfusion h
    | ok tm =>
      rw [hadd] at h
      have hvnotin : rs.version ∉ t.version_graph.edges := by
        rcases List.nodup_append.mp hnd with ⟨_, _, hdisj2⟩
        intro hc
        exact hdisj2 hc (by simp)
      unfold TabletInner.add_rowset at hadd
      by_cases hc : t.meta.rowsets.any (fun p => p.1 == rs.rowset_id)
      · rw [if_pos hc] at hadd
        exact Except.noConfusion hadd
      · rw [if_neg hc] at hadd
        have htm := (Except.ok.injEq _ _).mp hadd
        have htm_rows : tm.meta.rowsets = t.meta.rowsets ++
            [(rs.rowset_id, { rs with state := RowsetState.visible })] := by
          rw [← htm]
        have htm_edges : tm.version_graph.edges =
            t.version_graph.edges ++ [rs.version] := by
          rw [← htm]
          show (t.version_graph.add_edge rs.version).edges = _
          unfold VersionGraph.add_edge
          rw [if_neg hvnotin]
        have hnd2 : (tm.version_graph.edges ++
            rest.map RowsetMeta.version).Nodup := by
          rw [htm_edges, List.append_assoc]
          simpa using hnd
        obtain ⟨h1, h2⟩ := ih tm t2 h hnd2
        constructor
        · rw [h1, htm_rows, List.append_assoc]
          rfl
        · rw [h2, htm_edges, List.append_assoc]
          rfl

/-- Looking each chain version up among rowsets that contain it returns
a list whose versions are exactly the chain. -/
theorem filterMap_find_versions (rl : List RowsetMeta) :
    ∀ path : List Version, (∀ v ∈ path, ∃ r ∈ rl, r.version = v) →
      (path.filterMap
        (fun v => rl.find? (fun r => r.version == v))).map RowsetMeta.version =
        path := by
  intro path
  induction path with
  | nil => intro h; rfl
  | cons v rest ih =>
    intro h
    obtain ⟨r, hr, hrv⟩ := h v (List.mem_cons_self _ _)
    rcases hfind : rl.find? (fun r => r.version == v) with _ | r0
    · exfalso
      have := List.find?_eq_none.mp hfind r hr
      simp [hrv] at this
    · have hr0 : r0.version = v := by
        have := List.find?_some hfind
        simpa using this
      rw [@List.filterMap_cons_some _ _
          (fun v => rl.find? (fun r => r.version == v)) v rest r0 hfind,
        List.map_cons, hr0,
        ih (fun w hw => h w (List.mem_cons_of_mem _ hw))]


/-- Claim C2 (amended): for every tablet onto which a finite set of
rowsets has been published whose version intervals are pairwise
non-overlapping and whose union is exactly `[0,hi]` (with `0 ≤ hi`),
`capture_consistent_versions(0,hi)` succeeds and returns a list of
rowsets whose versions, in list order, form a partition of `[0,hi]`
(consecutive intervals `[s1,e1],[e1+1,e2],…` ending at `hi`). -/
theorem capture_partition_of_published (tid pid sh : Nat)
    (rsl : List RowsetMeta) (t : TabletInner) (hi : Int) (h0 : 0 ≤ hi)
    (hpub : publishAll (TabletInner.new (TabletMeta.new tid pid sh)) rsl = .ok t)
    (hwf : ∀ rs ∈ rsl, rs.version.start ≤ rs.version.stop)
    (hdisj : List.Pairwise (fun a b : RowsetMeta =>
      a.version.stop < b.version.start ∨ b.version.stop < a.version.start) rsl)
    (hcov : ∀ x : Int, (0 ≤ x ∧ x ≤ hi) ↔
      ∃ rs ∈ rsl, rs.version.start ≤ x ∧ x ≤ rs.version.stop) :
    (t.capture_consistent_versions 0 hi).map
      (fun l => isConsecutiveRun 0 hi (l.map RowsetMeta.version)) = .ok true := by
  have hwf2 : ∀ v ∈ rsl.map RowsetMeta.version, v.start ≤ v.stop := by
    intro v hv
    obtain ⟨rs, hrs, rfl⟩ := List.mem_map.mp hv
    exact hwf rs hrs
  have hdisj2 : List.Pairwise (fun a b : Version =>
      a.stop < b.start ∨ b.stop < a.start) (rsl.map RowsetMeta.version) :=
    List.Pairwise.map RowsetMeta.version (fun a b h => h) hdisj
  have hcov2 : ∀ x : Int, (0 ≤ x ∧ x ≤ hi) ↔
      ∃ v ∈ rsl.map RowsetMeta.version, v.start ≤ x ∧ x ≤ v.stop := by
    intro x
    rw [hcov x]
    constructor
    · rintro ⟨rs, hrs, hc⟩
      exact ⟨rs.version, List.mem_map_of_mem _ hrs, hc⟩
    · rintro ⟨v, hv, hc⟩
      obtain ⟨rs, hrs, rfl⟩ := List.mem_map.mp hv
      exact ⟨rs, hrs, hc⟩
  obtain ⟨ws, hperm, hchain⟩ := chain_of_partition (hi - 0).toNat
    (rsl.map RowsetMeta.version) 0 hi (le_refl _) h0 hwf2 hdisj2 hcov2
  have hnd_ws : ws.Nodup := sortedChain_nodup hchain
  have hnd_vs : (rsl.map RowsetMeta.version).Nodup := (hperm.nodup_iff).mpr hnd_ws
  obtain ⟨hrows, hedges⟩ := publishAll_state rsl _ t hpub (by simpa using hnd_vs)
  rw [show (TabletInner.new (TabletMeta.new tid pid sh)).meta.rowsets = []
    from rfl, List.nil_append] at hrows
  have hedges2 : t.version_graph.edges = rsl.map RowsetMeta.version := by
    rw [hedges]
    rfl
  have hpermt : t.version_graph.edges.Perm ws := by
    rw [hedges2]
    exact hperm
  have hstarts : List.Pairwise (fun a b : Version => a.start ≠ b.start) ws :=
    (sortedChain_pairwise_start hchain).imp (fun h => by omega)
  have hchar : ∀ v ∈ ws, t.version_graph.endsFor v.start = [v.stop] :=
    fun v hv => endsFor_eq_single _ ws hpermt hnd_ws hstarts v hv
  have hfind : t.version_graph.find_covering_path 0 hi = some ws := by
    unfold VersionGraph.find_covering_path
    have hvist : ∀ v ∈ ws.tail, v.start ∉ ([0] : List Int) := by
      cases ws with
      | nil => exact absurd rfl (sortedChain_ne_nil hchain)
      | cons w tail =>
        intro v hv
        have hws : w.start = 0 := sortedChain_head_start hchain
        have hlt := (List.pairwise_cons.mp
          (sortedChain_pairwise_start hchain)).1 v hv
        rw [List.mem_singleton]
        omega
    have hfuel : ws.length ≤ t.version_graph.edges.length + 1 := by
      rw [hpermt.length_eq]
      omega
    have := bfsLoop_on_chain t.version_graph hi 0 ws hchain hchar
      (t.version_graph.edges.length + 1) [] [0] hfuel hvist
    simpa using this
  have hexists : ∀ v ∈ ws, ∃ r ∈ t.meta.rowsets.map Prod.snd, r.version = v := by
    intro v hv
    have hvvs : v ∈ rsl.map RowsetMeta.version := (hperm.mem_iff).mpr hv
    obtain ⟨rs, hrs, rfl⟩ := List.mem_map.mp hvvs
    refine ⟨{ rs with state := RowsetState.visible }, ?_, rfl⟩
    rw [hrows]
    have : ({ rs with state := RowsetState.visible } : RowsetMeta) ∈
        rsl.map (fun rs => ({ rs with state := RowsetState.visible } : RowsetMeta)) :=
      List.mem_map_of_mem _ hrs
    simpa using this
  unfold TabletInner.capture_consistent_versions
  rw [hfind]
  simp only [Except.map]
  rw [filterMap_find_versions _ ws hexists]
  rw [sortedChain_run hchain]

/-- Claim C2 (counterexample): at `hi = -1` the interval `[0,hi]` is
empty, so the empty set of published rowsets has pairwise
non-overlapping versions whose union is exactly `[0,hi]` — yet
`capture_consistent_versions(0,-1)` fails with `MissingVersions`
instead of succeeding. -/
theorem capture_fails_on_empty_union :
    publishAll (TabletInner.new (TabletMeta.new 1 1 0)) [] =
      .ok (TabletInner.new (TabletMeta.new 1 1 0)) ∧
    (TabletInner.new (TabletMeta.new 1 1 0)).capture_consistent_versions
        0 (-1) = .error (.missingVersions (fmtRange 0 (-1))) := by
  constructor <;> rfl

/-- Claim C2 (witness): the amended theorem applied to the published
rowsets with versions `[0,1]` and `[2,3]` and `hi = 3` (the spec's S2
scenario). -/
theorem capture_partition_of_published_witness :
    ((⟨⟨1, 1, 0,
        [(1, { RowsetMeta.new 1 1 1 ⟨0, 1⟩ 5 5 with state := RowsetState.visible }),
         (2, { RowsetMeta.new 2 1 1 ⟨2, 3⟩ 5 5 with state := RowsetState.visible })],
        -1, 3⟩, ⟨[⟨0, 1⟩, ⟨2, 3⟩]⟩⟩ : TabletInner).capture_consistent_versions
        0 3).map
      (fun l => isConsecutiveRun 0 3 (l.map RowsetMeta.version)) = .ok true :=
  capture_partition_of_published 1 1 0
    [RowsetMeta.new 1 1 1 ⟨0, 1⟩ 5 5, RowsetMeta.new 2 1 1 ⟨2, 3⟩ 5 5]
    _ 3 (by norm_num) (by rfl)
    (by intro rs hrs; fin_cases hrs <;> decide)
    (by decide)
    (by
      intro x
      simp only [List.mem_cons, List.not_mem_nil, or_false]
      constructor
      · intro hx
        by_cases hc : x ≤ 1
        · refine ⟨RowsetMeta.new 1 1 1 ⟨0, 1⟩ 5 5, Or.inl rfl, ?_⟩
          show (0 : Int) ≤ x ∧ x ≤ 1
          omega
        · refine ⟨RowsetMeta.new 2 1 1 ⟨2, 3⟩ 5 5, Or.inr rfl, ?_⟩
          show (2 : Int) ≤ x ∧ x ≤ 3
          omega
      · rintro ⟨rs, rfl | rfl, hcv⟩
        · have h2 : (0 : Int) ≤ x ∧ x ≤ 1 := hcv
          omega
        · have h2 : (2 : Int) ≤ x ∧ x ≤ 3 := hcv
          omega)

/-- `bind` on a successful `Except` applies the continuation. -/
theorem exceptBind_ok {ε α β : Type} (a : α) (f : α → Except ε β) :
    ((Except.ok a : Except ε α) >>= f) = f a := rfl

/-- `BloomFilter.add` only toggles bits in place: the byte vector keeps
its length. -/
theorem bloom_add_bits_length (bf : BloomFilter) (v : List Nat) :
    (bf.add v).bits.length = bf.bits.length := by
  simp only [BloomFilter.add]
  generalize BloomFilter.probeBits v = ps
  generalize bf.bits = l
  induction ps generalizing l with
  | nil => rfl
  | cons p ps ih => rw [List.foldl_cons, ih]; simp [List.length_set]

/-- The concrete bloom filter's bit vector is 5120 bytes long. -/
theorem c1Bloom_bits_length : c1Bloom.bits.length = 5120 := by
  rw [show c1Bloom = (BloomFilter.new 4096).add c1Key from rfl,
    bloom_add_bits_length,
    show (BloomFilter.new 4096).bits = List.replicate 5120 0 from rfl,
    List.length_replicate]

/-- Reading back a `u32` ignores any suffix after the four bytes. -/
theorem fromLe32_le32_append (x : Nat) (rest : List Nat) (h : x < 2 ^ 32) :
    fromLe32 (le32 x ++ rest) = x := by
  have he : fromLe32 (le32 x ++ rest) = fromLe32 (le32 x) := rfl
  rw [he, fromLe32_le32 x h]

set_option maxRecDepth 20000 in
theorem c1_append :
    (SegmentWriter.new [c1Meta]).append_row c1Lz [Value.int64 7] = .ok c1W :=
  rfl

set_option maxRecDepth 20000 in
theorem c1_colDatas :
    SegmentWriter.colDatas c1Lz [c1Cw] =
      .ok [((⟨[]⟩ : OrdinalIndex), (⟨[]⟩ : ZoneMapIndex), c1Bloom, c1Page)] :=
  rfl


theorem c1_finalize : SegmentWriter.finalize c1Lz c1W = .ok (c1Data, 5277) := by
  have h1 : SegmentWriter.colDatas c1Lz c1W.col_writers
      = .ok [((⟨[]⟩ : OrdinalIndex), (⟨[]⟩ : ZoneMapIndex), c1Bloom, c1Page)] := by
    rw [show c1W.col_writers = [c1Cw] from rfl]; exact c1_colDatas
  have hob : OrdinalIndex.serialize ⟨[]⟩ = ([0, 0, 0, 0] : List Nat) := rfl
  have hzb : ZoneMapIndex.serialize ⟨[]⟩ = ([0, 0, 0, 0] : List Nat) := rfl
  have hbb : BloomFilter.serialize c1Bloom = le32 40960 ++ c1Bloom.bits := by
    show le32 c1Bloom.num_bits ++ c1Bloom.bits = le32 40960 ++ c1Bloom.bits
    rw [show c1Bloom.num_bits = 40960 from rfl]
  have hbblen : (le32 40960 ++ c1Bloom.bits).length = 5124 := by
    simp [List.length_append, le32_length, c1Bloom_bits_length]
  have hidx : SegmentWriter.idxRegion 37
      [((⟨[]⟩ : OrdinalIndex), (⟨[]⟩ : ZoneMapIndex), c1Bloom, c1Page)] =
      ([0, 0, 0, 0] ++ ([0, 0, 0, 0] ++ ((le32 40960 ++ c1Bloom.bits) ++ [])),
        [⟨37, 4, 41, 4, 45, 5124⟩], 5169) := by
    simp only [SegmentWriter.idxRegion, hob, hzb, hbb, hbblen]
    norm_num
  have hsk : ShortKeyIndex.serialize c1W.sk_index = c1Sk := rfl
  have hsklen : c1Sk.length = 20 := rfl
  have hfblen : c1Fb.length = 72 := rfl
  unfold SegmentWriter.finalize
  rw [h1, exceptBind_ok]
  simp only [List.map_cons, List.map_nil, List.flatten_cons, List.flatten_nil,
    List.append_nil, show c1Page.length = 25 from rfl]
  norm_num
  rw [hidx]
  simp only [hsk, hsklen, show c1W.num_rows = 1 from rfl,
    show c1W.col_writers.length = 1 from rfl]
  rw [show (⟨1, 1, 5169, 20, [⟨37, 4, 41, 4, 45, 5124⟩]⟩ : SegmentFooter)
      = c1Footer from rfl,
    show SegmentFooter.serialize c1Footer = c1Fb from rfl]
  constructor
  · simp only [c1Data, SEGMENT_VERSION, List.append_assoc, List.append_nil]
  · rw [hfblen]


/-- `SegmentReader::open` accepts any byte vector laid out as
`front ++ footer ++ crc32(footer) ++ len(footer) ++ MAGIC` whose footer
deserializes, and returns the reader over those bytes. -/
theorem open_layout (front fb : List Nat) (f : SegmentFooter)
    (schema : List ColumnMeta)
    (hfr : 4 ≤ front.length)
    (hfb32 : fb.length < 2 ^ 32)
    (hel : ∀ x ∈ fb, x < 2 ^ 32)
    (hde : SegmentFooter.deserialize fb = some f) :
    SegmentReader.open
        (front ++ fb ++ le32 (crc32 fb) ++ le32 fb.length ++ MAGIC) schema
      = .ok ⟨front ++ fb ++ le32 (crc32 fb) ++ le32 fb.length ++ MAGIC,
          f, schema⟩ := by
  have hm : MAGIC.length = 8 := rfl
  have hn : (front ++ fb ++ le32 (crc32 fb) ++ le32 fb.length ++ MAGIC).length
      = front.length + fb.length + 16 := by
    simp [List.length_append, le32_length, hm]; omega
  have h8 : (front ++ fb ++ le32 (crc32 fb) ++ le32 fb.length ++ MAGIC).drop
      (front.length + fb.length + 8) = MAGIC := by
    rw [show front ++ fb ++ le32 (crc32 fb) ++ le32 fb.length ++ MAGIC
        = (front ++ fb ++ le32 (crc32 fb) ++ le32 fb.length) ++ MAGIC by
      simp [List.append_assoc]]
    exact List.drop_left' (by simp [List.length_append, le32_length]; omega)
  have h12 : (front ++ fb ++ le32 (crc32 fb) ++ le32 fb.length ++ MAGIC).drop
      (front.length + fb.length + 4) = le32 fb.length ++ MAGIC := by
    rw [show front ++ fb ++ le32 (crc32 fb) ++ le32 fb.length ++ MAGIC
        = (front ++ fb ++ le32 (crc32 fb)) ++ (le32 fb.length ++ MAGIC) by
      simp [List.append_assoc]]
    exact List.drop_left' (by simp [List.length_append, le32_length]; omega)
  have h16 : (front ++ fb ++ le32 (crc32 fb) ++ le32 fb.length ++ MAGIC).drop
      (front.length + fb.length)
      = le32 (crc32 fb) ++ le32 fb.length ++ MAGIC := by
    rw [show front ++ fb ++ le32 (crc32 fb) ++ le32 fb.length ++ MAGIC
        = (front ++ fb) ++ (le32 (crc32 fb) ++ le32 fb.length ++ MAGIC) by
      simp [List.append_assoc]]
    exact List.drop_left' (by simp [List.length_append])
  have hfd : (front ++ fb ++ le32 (crc32 fb) ++ le32 fb.length ++ MAGIC).drop
      front.length = fb ++ le32 (crc32 fb) ++ le32 fb.length ++ MAGIC := by
    rw [show front ++ fb ++ le32 (crc32 fb) ++ le32 fb.length ++ MAGIC
        = front ++ (fb ++ le32 (crc32 fb) ++ le32 fb.length ++ MAGIC) by
      simp [List.append_assoc]]
    exact List.drop_left' rfl
  simp only [SegmentReader.open, hn]
  rw [show front.length + fb.length + 16 - 8 = front.length + fb.length + 8
      by omega, h8,
    show front.length + fb.length + 16 - 12 = front.length + fb.length + 4
      by omega, h12,
    show front.length + fb.length + 16 - 16 = front.length + fb.length
      by omega, h16,
    fromLe32_le32_append _ _ hfb32,
    List.append_assoc (le32 (crc32 fb)) (le32 fb.length) MAGIC,
    fromLe32_le32_append _ _ (crc32_lt fb hel)]
  rw [if_neg (by push_neg; exact ⟨by omega, by simp⟩)]
  rw [if_neg (by omega)]
  rw [show front.length + fb.length - fb.length = front.length by omega, hfd]
  rw [show fb ++ le32 (crc32 fb) ++ le32 fb.length ++ MAGIC
      = fb ++ (le32 (crc32 fb) ++ (le32 fb.length ++ MAGIC)) by
    simp [List.append_assoc]]
  rw [List.take_left]
  rw [if_neg (by simp)]
  rw [hde]


theorem c1_open : SegmentReader.open c1Data [c1Meta] = .ok c1Reader := by
  have h := open_layout
    (MAGIC ++ le32 2 ++ c1Page ++ [0, 0, 0, 0] ++ [0, 0, 0, 0] ++
      le32 40960 ++ c1Bloom.bits ++ c1Sk) c1Fb c1Footer [c1Meta]
    (by rw [List.length_append, show c1Sk.length = 20 from rfl]; omega)
    (by rw [show c1Fb.length = 72 from rfl]; norm_num)
    (by decide)
    rfl
  exact h

theorem c1_read : SegmentReader.read_column c1Lz c1Reader 0 = .ok [] := by
  have hdrop : (c1Data.drop 37).take 4 = ([0, 0, 0, 0] : List Nat) := by
    rw [show c1Data = (MAGIC ++ le32 2 ++ c1Page) ++
        ([0, 0, 0, 0] ++ ([0, 0, 0, 0] ++ le32 40960 ++ c1Bloom.bits ++
          c1Sk ++ c1Fb ++ le32 (crc32 c1Fb) ++ le32 c1Fb.length ++ MAGIC))
        from by simp [c1Data, List.append_assoc]]
    rw [List.drop_left' (show (MAGIC ++ le32 2 ++ c1Page).length = 37
      from rfl)]
    rw [show [0, 0, 0, 0] ++ ([0, 0, 0, 0] ++ le32 40960 ++ c1Bloom.bits ++
        c1Sk ++ c1Fb ++ le32 (crc32 c1Fb) ++ le32 c1Fb.length ++ MAGIC)
        = ([0, 0, 0, 0] : List Nat) ++ ([0, 0, 0, 0] ++ le32 40960 ++
          c1Bloom.bits ++ c1Sk ++ c1Fb ++ le32 (crc32 c1Fb) ++
          le32 c1Fb.length ++ MAGIC) from rfl]
    exact List.take_left' rfl
  show Except.ok (readPages c1Lz c1Reader ⟨37, 4, 41, 4, 45, 5124⟩ c1Meta
      (OrdinalIndex.deserialize ((c1Data.drop 37).take 4))
      (OrdinalIndex.deserialize ((c1Data.drop 37).take 4)).page_count 0)
    = .ok []
  rw [hdrop]
  rfl


/-- **C1** (falsified).  The claimed write/read round-trip fails at the
smallest input: with a single Int64 column (DeltaBinary encoding, no
compression), after appending the one row `[Int64 7]`,
`SegmentWriter::finalize` produces bytes that `SegmentReader::open`
accepts, `num_rows` reports 1, but `read_column 0` returns the empty
vector instead of one value: the writer clones each column's ordinal
index before `ColumnWriter::finalize` flushes the trailing page, so the
serialized ordinal index is empty and the reader finds no pages. -/
theorem segment_roundtrip_read_column_loses_rows :
    (SegmentWriter.new [c1Meta]).append_row c1Lz [Value.int64 7] = .ok c1W ∧
    SegmentWriter.finalize c1Lz c1W = .ok (c1Data, 5277) ∧
    SegmentReader.open c1Data [c1Meta] = .ok c1Reader ∧
    c1Reader.num_rows = 1 ∧
    c1Reader.read_column c1Lz 0 = .ok [] :=
  ⟨c1_append, c1_finalize, c1_open, rfl, c1_read⟩


end Olap
